import Mathlib

set_option maxHeartbeats 1000000

/-
Verification of the MySQLtoS3 export pipeline (src/main.py).

The embedding models rows as lists of tagged values (`JVal`), a pandas
DataFrame as a column list plus row-major data (`DF`), and the pipeline
`export_data` as a pure function over an input table, a run clock, and
oracles for the S3 upload and MySQL delete outcomes.  JSON serialization
is modelled down to the character level with a verified printer/parser
pair, since several claims concern decode failures and round trips.
-/

namespace MySQLtoS3

/-- Tagged dynamic value: the schema-less cell type of a row
(string/number/boolean/null/nested object/nested array). -/
inductive JVal where
  | jnull : JVal
  | jbool : Bool → JVal
  | jint : Int → JVal
  | jstr : String → JVal
  | jarr : List JVal → JVal
  | jobj : List (String × JVal) → JVal

/-! ### Character-level JSON encoding (model of json.dumps / df.to_json) -/

def isDigitCh (c : Char) : Bool := 48 ≤ c.toNat && c.toNat ≤ 57

def digitChar (n : Nat) : Char := Char.ofNat (48 + n)

def natChars (n : Nat) : List Char :=
  if _h : n < 10 then [digitChar n]
  else natChars (n / 10) ++ [digitChar (n % 10)]
  decreasing_by exact Nat.div_lt_self (by omega) (by omega)

def intChars (i : Int) : List Char :=
  if i < 0 then '-' :: natChars i.natAbs else natChars i.toNat

/-- One escaped character of a JSON string body. -/
def esc1 (c : Char) : List Char :=
  if c = '"' then ['\\', '"']
  else if c = '\\' then ['\\', '\\']
  else if c = '\n' then ['\\', 'n']
  else [c]

def escChars : List Char → List Char
  | [] => []
  | c :: cs => esc1 c ++ escChars cs

mutual

def encodeV : JVal → List Char
  | .jnull => ['n', 'u', 'l', 'l']
  | .jbool true => ['t', 'r', 'u', 'e']
  | .jbool false => ['f', 'a', 'l', 's', 'e']
  | .jint i => intChars i
  | .jstr s => '"' :: (escChars s.data ++ ['"'])
  | .jarr xs => '[' :: encodeArr xs
  | .jobj fs => '\x7b' :: encodeObj fs

def encodeArr : List JVal → List Char
  | [] => [']']
  | [x] => encodeV x ++ [']']
  | x :: y :: ys => encodeV x ++ ',' :: encodeArr (y :: ys)

def encodeObj : List (String × JVal) → List Char
  | [] => ['\x7d']
  | [(k, v)] => '"' :: (escChars k.data ++ '"' :: ':' :: (encodeV v ++ ['\x7d']))
  | (k, v) :: f :: fs =>
      '"' :: (escChars k.data ++ '"' :: ':' :: (encodeV v ++ ',' :: encodeObj (f :: fs)))

end

/-! ### Character-level JSON parsing (model of json.loads / file readback) -/

def digitVal (c : Char) : Nat := c.toNat - 48

def takeDigits : List Char → (List Char × List Char)
  | [] => ([], [])
  | c :: cs =>
    if isDigitCh c then
      let p := takeDigits cs
      (c :: p.1, p.2)
    else ([], c :: cs)

def digitsToNat : Nat → List Char → Nat
  | acc, [] => acc
  | acc, c :: cs => digitsToNat (acc * 10 + digitVal c) cs

def parseNatP (cs : List Char) : Option (Nat × List Char) :=
  let p := takeDigits cs
  if p.1 = [] then none else some (digitsToNat 0 p.1, p.2)

def unesc (d : Char) : Option Char :=
  if d = '"' then some '"'
  else if d = '\\' then some '\\'
  else if d = 'n' then some '\n'
  else if d = 't' then some '\t'
  else if d = 'r' then some '\r'
  else none

def parseStrLoop : List Char → Option (List Char × List Char)
  | [] => none
  | c :: cs =>
    if c = '"' then some ([], cs)
    else if c = '\\' then
      match cs with
      | [] => none
      | d :: cs2 =>
        match unesc d with
        | none => none
        | some e =>
          match parseStrLoop cs2 with
          | none => none
          | some (s, r) => some (e :: s, r)
    else
      match parseStrLoop cs with
      | none => none
      | some (s, r) => some (c :: s, r)

def expectChars : List Char → List Char → Option (List Char)
  | [], input => some input
  | e :: es, input =>
    match input with
    | [] => none
    | c :: cs => if c = e then expectChars es cs else none

mutual

def parseVal : Nat → List Char → Option (JVal × List Char)
  | 0, _ => none
  | _ + 1, [] => none
  | fuel + 1, c :: cs =>
    if c = '\x7b' then
      match parseObjFields fuel cs with
      | none => none
      | some (fs, r) => some (.jobj fs, r)
    else if c = '[' then
      match parseArrElems fuel cs with
      | none => none
      | some (xs, r) => some (.jarr xs, r)
    else if c = '"' then
      match parseStrLoop cs with
      | none => none
      | some (s, r) => some (.jstr (String.mk s), r)
    else if c = '-' then
      match parseNatP cs with
      | none => none
      | some (n, r) => some (.jint (-(n : Int)), r)
    else if isDigitCh c then
      match parseNatP (c :: cs) with
      | none => none
      | some (n, r) => some (.jint (n : Int), r)
    else if c = 'n' then
      match expectChars ['u', 'l', 'l'] cs with
      | none => none
      | some r => some (.jnull, r)
    else if c = 't' then
      match expectChars ['r', 'u', 'e'] cs with
      | none => none
      | some r => some (.jbool true, r)
    else if c = 'f' then
      match expectChars ['a', 'l', 's', 'e'] cs with
      | none => none
      | some r => some (.jbool false, r)
    else none

def parseArrElems : Nat → List Char → Option (List JVal × List Char)
  | 0, _ => none
  | _ + 1, [] => none
  | fuel + 1, c :: cs =>
    if c = ']' then some ([], cs)
    else
      match parseVal fuel (c :: cs) with
      | none => none
      | some (v, r) =>
        match r with
        | [] => none
        | d :: r2 =>
          if d = ',' then
            match parseArrElems fuel r2 with
            | none => none
            | some (xs, rr) => some (v :: xs, rr)
          else if d = ']' then some ([v], r2)
          else none

def parseObjFields : Nat → List Char → Option (List (String × JVal) × List Char)
  | 0, _ => none
  | _ + 1, [] => none
  | fuel + 1, c :: cs =>
    if c = '\x7d' then some ([], cs)
    else if c = '"' then
      match parseStrLoop cs with
      | none => none
      | some (k, r) =>
        match r with
        | [] => none
        | d :: r2 =>
          if d = ':' then
            match parseVal fuel r2 with
            | none => none
            | some (v, r3) =>
              match r3 with
              | [] => none
              | d3 :: r4 =>
                if d3 = ',' then
                  match parseObjFields fuel r4 with
                  | none => none
                  | some (fs, rr) => some ((String.mk k, v) :: fs, rr)
                else if d3 = '\x7d' then some ([(String.mk k, v)], r4)
                else none
          else none
    else none

end

def isWs (c : Char) : Bool := c = ' ' || c = '\t' || c = '\n' || c = '\r'

def stripWs (cs : List Char) : List Char :=
  ((cs.dropWhile isWs).reverse.dropWhile isWs).reverse

/-- Model of Python json.loads on a whole string: strip surrounding
whitespace, parse one value, require the input to be consumed; `none`
models a raised json.JSONDecodeError. -/
def jsonLoadsL (cs : List Char) : Option JVal :=
  let t := stripWs cs
  match parseVal (2 * t.length + 4) t with
  | some (v, []) => some v
  | _ => none

def jsonLoads (s : String) : Option JVal := jsonLoadsL s.data

/-! ### Fuel accounting for the parser -/

mutual

def fuelV : JVal → Nat
  | .jnull => 1
  | .jbool _ => 1
  | .jint _ => 1
  | .jstr _ => 1
  | .jarr xs => fuelA xs + 2
  | .jobj fs => fuelO fs + 2

def fuelA : List JVal → Nat
  | [] => 1
  | x :: xs => fuelV x + fuelA xs + 1

def fuelO : List (String × JVal) → Nat
  | [] => 1
  | kv :: fs => fuelV kv.2 + fuelO fs + 1

end

/-! ### Round-trip lemmas: numbers -/

/-- A remainder is a safe follower for a number literal when it does not
begin with a digit. -/
def goodFollow : List Char → Bool
  | [] => true
  | c :: _ => !isDigitCh c

theorem digitChar_val {n : Nat} (h : n < 10) : digitVal (digitChar n) = n := by
  interval_cases n <;> rfl

theorem digitChar_isDigit {n : Nat} (h : n < 10) : isDigitCh (digitChar n) = true := by
  interval_cases n <;> rfl

theorem natChars_ne_nil (n : Nat) : natChars n ≠ [] := by
  unfold natChars
  split <;> simp

theorem natChars_all_digits (n : Nat) : ∀ c ∈ natChars n, isDigitCh c = true := by
  induction n using natChars.induct with
  | case1 n h =>
    rw [natChars, dif_pos h]
    intro c hc
    simp only [List.mem_singleton] at hc
    subst hc; exact digitChar_isDigit h
  | case2 n h ih =>
    rw [natChars, dif_neg h]
    intro c hc
    rcases List.mem_append.mp hc with h1 | h2
    · exact ih c h1
    · simp only [List.mem_singleton] at h2
      subst h2; exact digitChar_isDigit (Nat.mod_lt _ (by omega))

theorem takeDigits_app (ds rest : List Char) (hds : ∀ c ∈ ds, isDigitCh c = true)
    (hr : goodFollow rest = true) : takeDigits (ds ++ rest) = (ds, rest) := by
  induction ds with
  | nil =>
    cases rest with
    | nil => rfl
    | cons c cs =>
      simp only [goodFollow, Bool.not_eq_true'] at hr
      rw [List.nil_append, takeDigits.eq_def]
      dsimp only
      rw [if_neg (by simp [hr])]
  | cons c cs ih =>
    have hc : isDigitCh c = true := hds c (by simp)
    rw [List.cons_append, takeDigits.eq_def]
    dsimp only
    rw [if_pos hc, ih (fun d hd => hds d (by simp [hd]))]

theorem digitsToNat_app (acc : Nat) (xs ys : List Char) :
    digitsToNat acc (xs ++ ys) = digitsToNat (digitsToNat acc xs) ys := by
  induction xs generalizing acc with
  | nil => rfl
  | cons c cs ih =>
    rw [List.cons_append]
    show digitsToNat (acc * 10 + digitVal c) (cs ++ ys) =
      digitsToNat (digitsToNat (acc * 10 + digitVal c) cs) ys
    exact ih _

theorem digitsToNat_natChars (n : Nat) :
    ∀ acc, digitsToNat acc (natChars n) = acc * 10 ^ (natChars n).length + n := by
  induction n using natChars.induct with
  | case1 n h =>
    intro acc
    rw [natChars, dif_pos h]
    show acc * 10 + digitVal (digitChar n) = acc * 10 ^ ([digitChar n]).length + n
    rw [digitChar_val h, List.length_singleton, pow_one]
  | case2 n h ih =>
    intro acc
    rw [natChars, dif_neg h]
    rw [digitsToNat_app, ih]
    show (acc * 10 ^ (natChars (n / 10)).length + n / 10) * 10 + digitVal (digitChar (n % 10)) =
      acc * 10 ^ (natChars (n / 10) ++ [digitChar (n % 10)]).length + n
    rw [digitChar_val (Nat.mod_lt n (by omega) : n % 10 < 10)]
    rw [List.length_append, List.length_singleton, pow_succ]
    have hdm := Nat.div_add_mod n 10
    nlinarith [hdm]

theorem parseNatP_natChars (n : Nat) (rest : List Char) (hr : goodFollow rest = true) :
    parseNatP (natChars n ++ rest) = some (n, rest) := by
  unfold parseNatP
  rw [takeDigits_app _ _ (natChars_all_digits n) hr]
  dsimp only
  rw [if_neg (natChars_ne_nil n)]
  have h0 := digitsToNat_natChars n 0
  simp only [Nat.zero_mul, Nat.zero_add] at h0
  rw [h0]

/-! ### Round-trip lemmas: strings -/

theorem psl_quote (cs : List Char) : parseStrLoop ('"' :: cs) = some ([], cs) := by
  rw [parseStrLoop.eq_def]; simp

theorem psl_esc (d e : Char) (cs s r : List Char)
    (hd : unesc d = some e) (h : parseStrLoop cs = some (s, r)) :
    parseStrLoop ('\\' :: d :: cs) = some (e :: s, r) := by
  rw [parseStrLoop.eq_def]
  dsimp only
  rw [if_neg (by decide : ¬ ('\\' : Char) = '"'), if_pos rfl]
  rw [hd, h]

theorem psl_other (c : Char) (cs s r : List Char)
    (h1 : ¬ c = '"') (h2 : ¬ c = '\\') (h : parseStrLoop cs = some (s, r)) :
    parseStrLoop (c :: cs) = some (c :: s, r) := by
  rw [parseStrLoop.eq_def]
  dsimp only
  rw [if_neg h1, if_neg h2, h]

theorem parseStrLoop_esc (s : List Char) (rest : List Char) :
    parseStrLoop (escChars s ++ '"' :: rest) = some (s, rest) := by
  induction s with
  | nil => exact psl_quote rest
  | cons c cs ih =>
    by_cases h1 : c = '"'
    · subst h1
      have he : esc1 '"' = ['\\', '"'] := rfl
      simp only [escChars, he, List.cons_append, List.nil_append]
      exact psl_esc _ _ _ _ _ rfl ih
    · by_cases h2 : c = '\\'
      · subst h2
        have he : esc1 '\\' = ['\\', '\\'] := rfl
        simp only [escChars, he, List.cons_append, List.nil_append]
        exact psl_esc _ _ _ _ _ rfl ih
      · by_cases h3 : c = '\n'
        · subst h3
          have he : esc1 '\n' = ['\\', 'n'] := rfl
          simp only [escChars, he, List.cons_append, List.nil_append]
          exact psl_esc _ _ _ _ _ rfl ih
        · have he : esc1 c = [c] := by
            unfold esc1
            rw [if_neg h1, if_neg h2, if_neg h3]
          simp only [escChars, he, List.cons_append, List.nil_append]
          exact psl_other _ _ _ _ h1 h2 ih

theorem expectChars_app (l rest : List Char) : expectChars l (l ++ rest) = some rest := by
  induction l with
  | nil => rfl
  | cons c cs ih =>
    rw [List.cons_append, expectChars.eq_def]
    dsimp only
    rw [if_pos rfl, ih]

/-! ### Round-trip: full values -/

/-! ### Newline-delimited files -/

def joinLines : List (List Char) → List Char
  | [] => []
  | [l] => l
  | l :: l2 :: ls => l ++ '\n' :: joinLines (l2 :: ls)

def splitNlAux : List Char → List Char → List (List Char)
  | acc, [] => [acc.reverse]
  | acc, c :: cs =>
    if c = '\n' then acc.reverse :: splitNlAux [] cs else splitNlAux (c :: acc) cs

def splitNl : List Char → List (List Char)
  | [] => []
  | cs => splitNlAux [] cs

theorem splitNlAux_no_nl (l : List Char) :
    ∀ acc, (∀ c ∈ l, ¬ c = '\n') → splitNlAux acc l = [acc.reverse ++ l] := by
  induction l with
  | nil => intro acc _; simp [splitNlAux]
  | cons c cs ih =>
    intro acc h
    rw [splitNlAux.eq_def]
    dsimp only
    rw [if_neg (h c (by simp))]
    rw [ih (c :: acc) (fun d hd => h d (by simp [hd]))]
    simp

theorem splitNlAux_app (l : List Char) :
    ∀ acc rest, (∀ c ∈ l, ¬ c = '\n') →
    splitNlAux acc (l ++ '\n' :: rest) = (acc.reverse ++ l) :: splitNlAux [] rest := by
  induction l with
  | nil =>
    intro acc rest _
    rw [List.nil_append, splitNlAux.eq_def]
    dsimp only
    rw [if_pos rfl]
    simp
  | cons c cs ih =>
    intro acc rest h
    rw [List.cons_append, splitNlAux.eq_def]
    dsimp only
    rw [if_neg (h c (by simp))]
    rw [ih (c :: acc) rest (fun d hd => h d (by simp [hd]))]
    simp

theorem splitNlAux_joinLines (ls : List (List Char))
    (hnl : ∀ l ∈ ls, ∀ c ∈ l, ¬ c = '\n') (hne : ls ≠ []) :
    splitNlAux [] (joinLines ls) = ls := by
  induction ls with
  | nil => exact absurd rfl hne
  | cons l ls2 ih =>
    cases ls2 with
    | nil =>
      rw [joinLines]
      rw [splitNlAux_no_nl l [] (hnl l (by simp))]
      simp
    | cons l2 ls3 =>
      rw [joinLines]
      rw [splitNlAux_app l [] (joinLines (l2 :: ls3)) (hnl l (by simp))]
      rw [ih (fun m hm => hnl m (by simp [hm])) (by simp)]
      simp

theorem splitNl_joinLines (ls : List (List Char))
    (hnl : ∀ l ∈ ls, ∀ c ∈ l, ¬ c = '\n') (hne : ∀ l ∈ ls, l ≠ []) :
    splitNl (joinLines ls) = ls := by
  cases ls with
  | nil => rfl
  | cons l ls2 =>
    have hj : splitNlAux [] (joinLines (l :: ls2)) = l :: ls2 :=
      splitNlAux_joinLines _ hnl (by simp)
    have hlne : l ≠ [] := hne l (by simp)
    obtain ⟨c, cs, hl⟩ := List.exists_cons_of_ne_nil hlne
    have hjoin : ∃ d ds, joinLines (l :: ls2) = d :: ds := by
      cases ls2 with
      | nil => exact ⟨c, cs, by rw [joinLines, hl]⟩
      | cons l2 ls3 =>
        rw [joinLines, hl]
        exact ⟨c, cs ++ '\n' :: joinLines (l2 :: ls3), by simp⟩
    obtain ⟨d, ds, hd⟩ := hjoin
    rw [hd]
    rw [hd] at hj
    rw [← hj]
    rw [splitNl]
    simp

/-! ### Absence of raw newlines in encoded values -/

theorem natChars_no_nl (n : Nat) : ¬ '\n' ∈ natChars n := by
  intro h
  exact absurd (natChars_all_digits n _ h) (by decide)

theorem intChars_no_nl (i : Int) : ¬ '\n' ∈ intChars i := by
  unfold intChars
  split
  · intro h
    rcases List.mem_cons.mp h with h1 | h2
    · exact absurd h1 (by decide)
    · exact natChars_no_nl _ h2
  · exact natChars_no_nl _

theorem escChars_no_nl (s : List Char) : ¬ '\n' ∈ escChars s := by
  induction s with
  | nil => simp [escChars]
  | cons c cs ih =>
    rw [escChars]
    intro h
    rcases List.mem_append.mp h with h1 | h2
    · unfold esc1 at h1
      by_cases e1 : c = '"'
      · rw [if_pos e1] at h1
        rcases List.mem_cons.mp h1 with h3 | h3
        · exact absurd h3 (by decide)
        · exact absurd (List.mem_singleton.mp h3) (by decide)
      · rw [if_neg e1] at h1
        by_cases e2 : c = '\\'
        · rw [if_pos e2] at h1
          rcases List.mem_cons.mp h1 with h3 | h3
          · exact absurd h3 (by decide)
          · exact absurd (List.mem_singleton.mp h3) (by decide)
        · rw [if_neg e2] at h1
          by_cases e3 : c = '\n'
          · rw [if_pos e3] at h1
            rcases List.mem_cons.mp h1 with h3 | h3
            · exact absurd h3 (by decide)
            · exact absurd (List.mem_singleton.mp h3) (by decide)
          · rw [if_neg e3] at h1
            exact e3 (List.mem_singleton.mp h1).symm
    · exact ih h2

mutual

theorem encodeV_no_nl (v : JVal) : ¬ '\n' ∈ encodeV v := by
  cases v with
  | jnull => rw [encodeV]; decide
  | jbool b => cases b <;> (rw [encodeV]; decide)
  | jint i => rw [encodeV]; exact intChars_no_nl i
  | jstr s =>
    rw [encodeV]
    intro h
    rcases List.mem_cons.mp h with h1 | h2
    · exact absurd h1 (by decide)
    · rcases List.mem_append.mp h2 with h3 | h4
      · exact escChars_no_nl _ h3
      · exact absurd (List.mem_singleton.mp h4) (by decide)
  | jarr xs =>
    rw [encodeV]
    intro h
    rcases List.mem_cons.mp h with h1 | h2
    · exact absurd h1 (by decide)
    · exact encodeArr_no_nl xs h2
  | jobj fs =>
    rw [encodeV]
    intro h
    rcases List.mem_cons.mp h with h1 | h2
    · exact absurd h1 (by decide)
    · exact encodeObj_no_nl fs h2

theorem encodeArr_no_nl (xs : List JVal) : ¬ '\n' ∈ encodeArr xs := by
  cases xs with
  | nil => rw [encodeArr]; decide
  | cons x ys =>
    cases ys with
    | nil =>
      rw [encodeArr]
      intro h
      rcases List.mem_append.mp h with h1 | h2
      · exact encodeV_no_nl x h1
      · exact absurd (List.mem_singleton.mp h2) (by decide)
    | cons y zs =>
      rw [encodeArr]
      intro h
      rcases List.mem_append.mp h with h1 | h2
      · exact encodeV_no_nl x h1
      · rcases List.mem_cons.mp h2 with h3 | h4
        · exact absurd h3 (by decide)
        · exact encodeArr_no_nl (y :: zs) h4

theorem encodeObj_no_nl (fs : List (String × JVal)) : ¬ '\n' ∈ encodeObj fs := by
  cases fs with
  | nil => rw [encodeObj]; decide
  | cons kv gs =>
    obtain ⟨k, v⟩ := kv
    cases gs with
    | nil =>
      rw [encodeObj]
      intro h
      rcases List.mem_cons.mp h with h1 | h2
      · exact absurd h1 (by decide)
      · rcases List.mem_append.mp h2 with h3 | h4
        · exact escChars_no_nl _ h3
        · rcases List.mem_cons.mp h4 with h5 | h6
          · exact absurd h5 (by decide)
          · rcases List.mem_cons.mp h6 with h7 | h8
            · exact absurd h7 (by decide)
            · rcases List.mem_append.mp h8 with h9 | h10
              · exact encodeV_no_nl v h9
              · exact absurd (List.mem_singleton.mp h10) (by decide)
    | cons g hs2 =>
      rw [encodeObj]
      intro h
      rcases List.mem_cons.mp h with h1 | h2
      · exact absurd h1 (by decide)
      · rcases List.mem_append.mp h2 with h3 | h4
        · exact escChars_no_nl _ h3
        · rcases List.mem_cons.mp h4 with h5 | h6
          · exact absurd h5 (by decide)
          · rcases List.mem_cons.mp h6 with h7 | h8
            · exact absurd h7 (by decide)
            · rcases List.mem_append.mp h8 with h9 | h10
              · exact encodeV_no_nl v h9
              · rcases List.mem_cons.mp h10 with h11 | h12
                · exact absurd h11 (by decide)
                · exact encodeObj_no_nl (g :: hs2) h12

end

theorem fuelV_pos (v : JVal) : 1 ≤ fuelV v := by
  cases v <;> rw [fuelV] <;> omega

theorem fuelA_pos (xs : List JVal) : 1 ≤ fuelA xs := by
  cases xs <;> rw [fuelA] <;> omega

theorem fuelO_pos (fs : List (String × JVal)) : 1 ≤ fuelO fs := by
  cases fs <;> rw [fuelO] <;> omega

theorem goodFollow_cons (c : Char) (cs : List Char) (h : isDigitCh c = false) :
    goodFollow (c :: cs) = true := by
  rw [goodFollow]
  simp [h]

theorem digit_ne (c : Char) (hd : isDigitCh c = true) :
    ¬ c = '\x7b' ∧ ¬ c = '[' ∧ ¬ c = '"' ∧ ¬ c = '-' := by
  refine ⟨?_, ?_, ?_, ?_⟩ <;> (intro he; subst he; exact absurd hd (by decide))

theorem encodeV_head (v : JVal) : ∃ c cs, encodeV v = c :: cs ∧ ¬ c = ']' := by
  cases v with
  | jnull => exact ⟨'n', _, by rw [encodeV], by decide⟩
  | jbool b =>
    cases b with
    | false => exact ⟨'f', _, by rw [encodeV], by decide⟩
    | true => exact ⟨'t', _, by rw [encodeV], by decide⟩
  | jint i =>
    by_cases h : i < 0
    · exact ⟨'-', natChars i.natAbs, by rw [encodeV, intChars, if_pos h], by decide⟩
    · obtain ⟨c, cs, hc⟩ := List.exists_cons_of_ne_nil (natChars_ne_nil i.toNat)
      have hd : isDigitCh c = true := natChars_all_digits _ c (by rw [hc]; exact List.mem_cons_self _ _)
      refine ⟨c, cs, by rw [encodeV, intChars, if_neg h, hc], ?_⟩
      intro he; subst he; exact absurd hd (by decide)
  | jstr s => exact ⟨'"', _, by rw [encodeV], by decide⟩
  | jarr xs => exact ⟨'[', _, by rw [encodeV], by decide⟩
  | jobj fs => exact ⟨'\x7b', _, by rw [encodeV], by decide⟩

mutual

theorem parse_encodeV (v : JVal) (rest : List Char) (fuel : Nat)
    (hf : fuelV v ≤ fuel) (hr : goodFollow rest = true) :
    parseVal fuel (encodeV v ++ rest) = some (v, rest) := by
  cases fuel with
  | zero => exact absurd hf (by have := fuelV_pos v; omega)
  | succ f =>
    cases v with
    | jnull =>
      rw [encodeV]
      simp only [List.cons_append, List.nil_append]
      rw [parseVal.eq_def]
      dsimp only
      rw [if_neg (by decide : ¬ ('n' : Char) = '\x7b'), if_neg (by decide : ¬ ('n' : Char) = '['),
        if_neg (by decide : ¬ ('n' : Char) = '"'), if_neg (by decide : ¬ ('n' : Char) = '-'),
        if_neg (by decide : ¬ isDigitCh 'n' = true), if_pos rfl]
      have he := expectChars_app ['u', 'l', 'l'] rest
      simp only [List.cons_append, List.nil_append] at he
      rw [he]
    | jbool b =>
      cases b with
      | true =>
        rw [encodeV]
        simp only [List.cons_append, List.nil_append]
        rw [parseVal.eq_def]
        dsimp only
        rw [if_neg (by decide : ¬ ('t' : Char) = '\x7b'), if_neg (by decide : ¬ ('t' : Char) = '['),
          if_neg (by decide : ¬ ('t' : Char) = '"'), if_neg (by decide : ¬ ('t' : Char) = '-'),
          if_neg (by decide : ¬ isDigitCh 't' = true), if_neg (by decide : ¬ ('t' : Char) = 'n'),
          if_pos rfl]
        have he := expectChars_app ['r', 'u', 'e'] rest
        simp only [List.cons_append, List.nil_append] at he
        rw [he]
      | false =>
        rw [encodeV]
        simp only [List.cons_append, List.nil_append]
        rw [parseVal.eq_def]
        dsimp only
        rw [if_neg (by decide : ¬ ('f' : Char) = '\x7b'), if_neg (by decide : ¬ ('f' : Char) = '['),
          if_neg (by decide : ¬ ('f' : Char) = '"'), if_neg (by decide : ¬ ('f' : Char) = '-'),
          if_neg (by decide : ¬ isDigitCh 'f' = true), if_neg (by decide : ¬ ('f' : Char) = 'n'),
          if_neg (by decide : ¬ ('f' : Char) = 't'), if_pos rfl]
        have he := expectChars_app ['a', 'l', 's', 'e'] rest
        simp only [List.cons_append, List.nil_append] at he
        rw [he]
    | jint i =>
      by_cases hneg : i < 0
      · rw [encodeV, intChars, if_pos hneg]
        simp only [List.cons_append]
        rw [parseVal.eq_def]
        dsimp only
        rw [if_neg (by decide : ¬ ('-' : Char) = '\x7b'), if_neg (by decide : ¬ ('-' : Char) = '['),
          if_neg (by decide : ¬ ('-' : Char) = '"'), if_pos rfl]
        rw [parseNatP_natChars _ _ hr]
        dsimp only
        have habs : ((i.natAbs : Int)) = -i := Int.ofNat_natAbs_of_nonpos (le_of_lt hneg)
        rw [habs, neg_neg]
      · rw [encodeV, intChars, if_neg hneg]
        obtain ⟨c, cs, hc⟩ := List.exists_cons_of_ne_nil (natChars_ne_nil i.toNat)
        have hd : isDigitCh c = true :=
          natChars_all_digits _ c (by rw [hc]; exact List.mem_cons_self _ _)
        obtain ⟨hne1, hne2, hne3, hne4⟩ := digit_ne c hd
        rw [hc]
        simp only [List.cons_append]
        rw [parseVal.eq_def]
        dsimp only
        rw [if_neg hne1, if_neg hne2, if_neg hne3, if_neg hne4, if_pos hd]
        have hp : parseNatP (c :: (cs ++ rest)) = some (i.toNat, rest) := by
          have := parseNatP_natChars i.toNat rest hr
          rw [hc] at this
          simpa using this
        rw [hp]
        dsimp only
        rw [Int.toNat_of_nonneg (le_of_not_lt hneg)]
    | jstr s =>
      rw [encodeV]
      simp only [List.cons_append, List.append_assoc, List.singleton_append, List.nil_append]
      rw [parseVal.eq_def]
      dsimp only
      rw [if_neg (by decide : ¬ ('"' : Char) = '\x7b'), if_neg (by decide : ¬ ('"' : Char) = '['),
        if_pos rfl]
      rw [parseStrLoop_esc s.data rest]
    | jarr xs =>
      rw [encodeV]
      simp only [List.cons_append]
      rw [parseVal.eq_def]
      dsimp only
      rw [if_neg (by decide : ¬ ('[' : Char) = '\x7b'), if_pos rfl]
      rw [fuelV] at hf
      rw [parse_encodeArr xs rest f (by omega)]
    | jobj fs =>
      rw [encodeV]
      simp only [List.cons_append]
      rw [parseVal.eq_def]
      dsimp only
      rw [if_pos rfl]
      rw [fuelV] at hf
      rw [parse_encodeObj fs rest f (by omega)]

theorem parse_encodeArr (xs : List JVal) (rest : List Char) (fuel : Nat)
    (hf : fuelA xs ≤ fuel) :
    parseArrElems fuel (encodeArr xs ++ rest) = some (xs, rest) := by
  cases fuel with
  | zero => exact absurd hf (by have := fuelA_pos xs; omega)
  | succ f =>
    cases xs with
    | nil =>
      rw [encodeArr]
      simp only [List.singleton_append]
      rw [parseArrElems.eq_def]
      dsimp only
      rw [if_pos rfl]
    | cons x ys =>
      obtain ⟨c, cs, hc, hcr⟩ := encodeV_head x
      rw [fuelA] at hf
      cases ys with
      | nil =>
        have h0 : fuelA ([] : List JVal) = 1 := by rw [fuelA]
        rw [encodeArr, hc]
        simp only [List.cons_append, List.append_assoc, List.singleton_append, List.nil_append]
        rw [parseArrElems.eq_def]
        dsimp only
        rw [if_neg hcr]
        have hpv : parseVal f (c :: (cs ++ ']' :: rest)) = some (x, ']' :: rest) := by
          have hx := parse_encodeV x (']' :: rest) f (by omega)
            (goodFollow_cons _ _ (by decide))
          rw [hc] at hx
          simpa using hx
        rw [hpv]
        dsimp only
        rw [if_neg (by decide : ¬ (']' : Char) = ','), if_pos rfl]
      | cons y zs =>
        have h1 := fuelV_pos x
        have h2 := fuelA_pos (y :: zs)
        rw [encodeArr, hc]
        simp only [List.cons_append, List.append_assoc]
        rw [parseArrElems.eq_def]
        dsimp only
        rw [if_neg hcr]
        have hpv : parseVal f (c :: (cs ++ ',' :: (encodeArr (y :: zs) ++ rest))) =
            some (x, ',' :: (encodeArr (y :: zs) ++ rest)) := by
          have hx := parse_encodeV x (',' :: (encodeArr (y :: zs) ++ rest)) f (by omega)
            (goodFollow_cons _ _ (by decide))
          rw [hc] at hx
          simpa using hx
        rw [hpv]
        dsimp only
        rw [if_pos rfl]
        rw [parse_encodeArr (y :: zs) rest f (by omega)]

theorem parse_encodeObj (fs : List (String × JVal)) (rest : List Char) (fuel : Nat)
    (hf : fuelO fs ≤ fuel) :
    parseObjFields fuel (encodeObj fs ++ rest) = some (fs, rest) := by
  cases fuel with
  | zero => exact absurd hf (by have := fuelO_pos fs; omega)
  | succ f =>
    cases fs with
    | nil =>
      rw [encodeObj]
      simp only [List.singleton_append]
      rw [parseObjFields.eq_def]
      dsimp only
      rw [if_pos rfl]
    | cons kv gs =>
      obtain ⟨k, v⟩ := kv
      rw [fuelO] at hf
      dsimp only at hf
      cases gs with
      | nil =>
        have h0 : fuelO ([] : List (String × JVal)) = 1 := by rw [fuelO]
        rw [encodeObj]
        simp only [List.cons_append, List.append_assoc, List.singleton_append, List.nil_append]
        rw [parseObjFields.eq_def]
        dsimp only
        rw [if_neg (by decide : ¬ ('"' : Char) = '\x7d'), if_pos rfl]
        have hs := parseStrLoop_esc k.data (':' :: (encodeV v ++ '\x7d' :: rest))
        rw [hs]
        dsimp only
        rw [if_pos rfl]
        have hpv : parseVal f (encodeV v ++ '\x7d' :: rest) = some (v, '\x7d' :: rest) :=
          parse_encodeV v ('\x7d' :: rest) f (by omega) (goodFollow_cons _ _ (by decide))
        rw [hpv]
        dsimp only
        rw [if_neg (by decide : ¬ ('\x7d' : Char) = ','), if_pos rfl]
      | cons g hs2 =>
        have h1 := fuelV_pos v
        have h2 := fuelO_pos (g :: hs2)
        rw [encodeObj]
        simp only [List.cons_append, List.append_assoc]
        rw [parseObjFields.eq_def]
        dsimp only
        rw [if_neg (by decide : ¬ ('"' : Char) = '\x7d'), if_pos rfl]
        have hs := parseStrLoop_esc k.data (':' :: (encodeV v ++ ',' :: (encodeObj (g :: hs2) ++ rest)))
        rw [hs]
        dsimp only
        rw [if_pos rfl]
        have hpv : parseVal f (encodeV v ++ ',' :: (encodeObj (g :: hs2) ++ rest)) =
            some (v, ',' :: (encodeObj (g :: hs2) ++ rest)) :=
          parse_encodeV v _ f (by omega) (goodFollow_cons _ _ (by decide))
        rw [hpv]
        dsimp only
        rw [if_pos rfl]
        rw [parse_encodeObj (g :: hs2) rest f (by omega)]

end

/-! ### Data model: rows and DataFrames

A row is a list of cell values positioned against a shared column list,
mirroring a pandas DataFrame (named columns over row-major data). -/

inductive PyErr where
  | keyError (col : String)
  | jsonDecode
  | typeTs
  | valueFormat
  | deleteFail (day : Int)
  deriving DecidableEq

structure DF where
  cols : List String
  data : List (List JVal)

/-- Cell access by column position; reading past the end yields null,
which never happens on well-formed frames. -/
def getCell (r : List JVal) (i : Nat) : JVal := r.getD i .jnull

def setCell (r : List JVal) (i : Nat) (v : JVal) : List JVal := r.set i v

/-- First position of a column name in a column list. -/
def idxOf? (c : String) : List String → Option Nat
  | [] => none
  | x :: xs => if x == c then some 0 else (idxOf? c xs).map (fun i => i + 1)

def DF.colIdx (df : DF) (c : String) : Option Nat := idxOf? c df.cols

/-- Well-formed frame: each row has exactly one cell per column. -/
def wfDF (df : DF) : Prop := ∀ r ∈ df.data, r.length = df.cols.length

instance (df : DF) : Decidable (wfDF df) := by
  unfold wfDF
  infer_instance

def ctxName : String := "context"
def cdName : String := "created_date"
def idName : String := "id"
def fmtJson : String := "json"
def fmtParquet : String := "parquet"

/-! ### Nested-field normalization (main.py lines 104-119) -/

/-- Model of double_json_load (main.py lines 109-119): safely parse a
possibly double-encoded JSON string; any decode failure returns the
original value. -/
def double_json_load (v : JVal) : JVal :=
  match v with
  | .jstr s =>
    match jsonLoads s with
    | none => .jstr s
    | some w =>
      match w with
      | .jstr t =>
        match jsonLoads t with
        | none => .jstr s
        | some u => u
      | u => u
  | u => u

def headIsBrace : List Char → Bool
  | [] => false
  | c :: _ => c = '\x7b'

/-- The lambda of clean_nested_json_fields (main.py line 106):
json.loads is applied, WITHOUT a try/except, whenever the value is a
string whose stripped form starts with an opening brace. -/
def cleanCell (v : JVal) : Except PyErr JVal :=
  match v with
  | .jstr s =>
    if headIsBrace (stripWs s.data) then
      match jsonLoads s with
      | some w => .ok w
      | none => .error .jsonDecode
    else .ok (.jstr s)
  | w => .ok w

def mapCol (df : DF) (i : Nat) (f : JVal → JVal) : DF :=
  ⟨df.cols, df.data.map (fun r => setCell r i (f (getCell r i)))⟩

def mapRowsE (i : Nat) (f : JVal → Except PyErr JVal) :
    List (List JVal) → Except PyErr (List (List JVal))
  | [] => .ok []
  | r :: rs =>
    match f (getCell r i) with
    | .error e => .error e
    | .ok v =>
      match mapRowsE i f rs with
      | .error e => .error e
      | .ok rs2 => .ok (setCell r i v :: rs2)

/-- df[col].apply(f) where f may raise: a missing column raises KeyError. -/
def mapColE (df : DF) (c : String) (f : JVal → Except PyErr JVal) : Except PyErr DF :=
  match df.colIdx c with
  | none => .error (.keyError c)
  | some i =>
    match mapRowsE i f df.data with
    | .error e => .error e
    | .ok d => .ok ⟨df.cols, d⟩

/-- Model of clean_nested_json_fields (main.py lines 104-107). -/
def clean_nested_json_fields (df : DF) (columns : List String) : Except PyErr DF :=
  match columns with
  | [] => .ok df
  | c :: cs =>
    match mapColE df c cleanCell with
    | .error e => .error e
    | .ok df2 => clean_nested_json_fields df2 cs

/-! ### Serialization (main.py lines 123-142) -/

inductive FileData where
  | jsonLines (content : List Char)
  | parquetTable (nrows : Nat) (cols : List String) (columns : List (List JVal))

/-- Line-delimited JSON content of a frame: one encoded record per line,
record fields in column order (df.to_json orient=records lines=True). -/
def ndjsonContent (df : DF) : List Char :=
  joinLines (df.data.map (fun r => encodeV (.jobj (df.cols.zip r))))

/-- Model of export_as_json (main.py lines 123-132): normalizes the
context column (which raises on a missing column or a malformed brace-
prefixed string) and then writes newline-delimited JSON. -/
def export_as_json (df : DF) : Except PyErr FileData :=
  match clean_nested_json_fields df [ctxName] with
  | .error e => .error e
  | .ok df2 => .ok (.jsonLines (ndjsonContent df2))

/-- Model of export_as_parquet (main.py lines 136-142): a self-describing
columnar table (row count, column names, per-column value lists). -/
def export_as_parquet (df : DF) : FileData :=
  .parquetTable df.data.length df.cols
    ((List.range df.cols.length).map (fun j => df.data.map (fun r => getCell r j)))

/-- Reading a columnar table back into rows. -/
def parquetParse : FileData → Option (List (List JVal))
  | .jsonLines _ => none
  | .parquetTable n _ columns =>
    some ((List.range n).map (fun i => columns.map (fun col => col.getD i .jnull)))

def parseLinesWith (fuel : Nat) : List (List Char) → Option (List JVal)
  | [] => some []
  | l :: ls =>
    match parseVal fuel l with
    | some (v, []) =>
      match parseLinesWith fuel ls with
      | some vs => some (v :: vs)
      | none => none
    | _ => none

/-- Reading a newline-delimited JSON file back: parse each line fully. -/
def parseNdjson (fuel : Nat) (cs : List Char) : Option (List JVal) :=
  parseLinesWith fuel (splitNl cs)

/-! ### Partitioner (main.py lines 74-85) -/

def asTs : JVal → Option Int
  | .jint n => some n
  | _ => none

/-- Model of pd.to_datetime(df[c], utc=True) (main.py line 68):
the column must exist and every value must be a timestamp (modelled as
epoch seconds, UTC); raises otherwise. -/
def toDatetimeUTC (df : DF) (c : String) : Except PyErr DF :=
  match df.colIdx c with
  | none => .error (.keyError c)
  | some i =>
    if df.data.all (fun r => (asTs (getCell r i)).isSome) then .ok df
    else .error .typeTs

/-- Timestamp of a row, read from column position ti (seconds since the
epoch, UTC). -/
def tsOfR (ti : Nat) (r : List JVal) : Int := (asTs (getCell r ti)).getD 0

/-- UTC calendar date of a timestamp, as an epoch day index
(floor division, matching .dt.date on a UTC datetime). -/
def dayIndex (t : Int) : Int := t.fdiv 86400

def extCell (ti : Nat) (r : List JVal) : JVal := .jint (dayIndex (tsOfR ti r))

/-- Age filter (main.py line 76): keep rows with timestamp <= cutoff. -/
def ageFilter (ti : Nat) (cutoff : Int) (df : DF) : DF :=
  ⟨df.cols, df.data.filter (fun r => decide (tsOfR ti r ≤ cutoff))⟩

/-- df[c] = f(df): pandas assignment overwrites an existing column in
place and otherwise appends a new one at the end. -/
def setOrAppendCol (df : DF) (c : String) (f : List JVal → JVal) : DF :=
  match df.colIdx c with
  | some i => ⟨df.cols, df.data.map (fun r => setCell r i (f r))⟩
  | none => ⟨df.cols ++ [c], df.data.map (fun r => r ++ [f r])⟩

/-- Sorted insertion without duplicates (groupby keys are the sorted
distinct values of the grouping column). -/
def insertDay (d : Int) : List Int → List Int
  | [] => [d]
  | x :: xs => if d < x then d :: x :: xs else if d = x then x :: xs else x :: insertDay d xs

def sortedDays (l : List Int) : List Int := l.foldr insertDay []

/-- Model of lines 83-85: add the created_date column, then group by it;
each group keeps all columns and the original row order, keys are the
sorted distinct dates. -/
def partitionize (ti : Nat) (df : DF) : List (Int × DF) :=
  let df4 := setOrAppendCol df cdName (extCell ti)
  let ci := (df4.colIdx cdName).getD 0
  let days := sortedDays (df4.data.map (fun r => (asTs (getCell r ci)).getD 0))
  days.map (fun d =>
    (d, ⟨df4.cols, df4.data.filter (fun r => decide ((asTs (getCell r ci)).getD 0 = d))⟩))

/-! ### Orchestrator (main.py lines 63-102, 146-186) -/

structure Config where
  table : String
  tsCol : String
  fmt : String
  minAgeHours : Int

/-- Environment oracles for the two effectful collaborators: per-partition
S3 upload outcome (upload_to_s3 catches exceptions and returns a Bool) and
per-partition MySQL delete outcome (a False models the transaction
raising, which rolls back and leaves no partial delete). -/
structure Oracles where
  uploadOk : Int → Bool
  deleteOk : Int → Bool

structure LocalFile where
  day : Int
  ext : String
  dat : FileData

structure POut where
  day : Int
  uploadSuccess : Bool
  deleteInvoked : Bool
  deleteSkippedNoId : Bool
  deletedIds : List JVal

structure LoopOut where
  partitions : List POut
  localFiles : List LocalFile
  err : Option PyErr

/-- Model of delete_uploaded_rows (main.py lines 169-186): skip when the
id column is absent; otherwise a single transactional delete of exactly
the partition's ids, all-or-nothing. -/
def delete_uploaded_rows (orc : Oracles) (day : Int) (g : DF) :
    Except PyErr (Bool × List JVal) :=
  match g.colIdx idName with
  | none => .ok (true, [])
  | some i =>
    if orc.deleteOk day then .ok (false, g.data.map (fun r => getCell r i))
    else .error (.deleteFail day)

/-- Per-partition serialization with the format dispatch of
main.py lines 90-97; an unknown format raises ValueError. -/
def serializeGroup (cfg : Config) (g : DF) : Except PyErr (String × FileData) :=
  if cfg.fmt = fmtJson then
    match export_as_json g with
    | .error e => .error e
    | .ok fd => .ok (fmtJson, fd)
  else if cfg.fmt = fmtParquet then .ok (fmtParquet, export_as_parquet g)
  else .error .valueFormat

/-- The per-partition loop of export_data (main.py lines 85-102):
serialize, upload, and delete only when upload reported success.  An
exception anywhere aborts the run; created local files are never
removed. -/
def runLoop (cfg : Config) (orc : Oracles) : List (Int × DF) → LoopOut
  | [] => ⟨[], [], none⟩
  | (d, g) :: rest =>
    match serializeGroup cfg g with
    | .error e => ⟨[], [], some e⟩
    | .ok (ext, fd) =>
      if orc.uploadOk d then
        match delete_uploaded_rows orc d g with
        | .error e => ⟨[⟨d, true, true, false, []⟩], [⟨d, ext, fd⟩], some e⟩
        | .ok (skipped, ids) =>
          let out := runLoop cfg orc rest
          ⟨⟨d, true, true, skipped, ids⟩ :: out.partitions,
            ⟨d, ext, fd⟩ :: out.localFiles, out.err⟩
      else
        let out := runLoop cfg orc rest
        ⟨⟨d, false, false, false, []⟩ :: out.partitions,
          ⟨d, ext, fd⟩ :: out.localFiles, out.err⟩

structure RunResult where
  partitionDays : List Int
  partitions : List POut
  localFiles : List LocalFile
  err : Option PyErr

/-- Lines 70-71: apply double_json_load over the context column when the
frame has one. -/
def contextNormalize (df : DF) : DF :=
  match df.colIdx ctxName with
  | some ci => mapCol df ci double_json_load
  | none => df

/-- Lines 74-102 of export_data: age filter, empty-set no-op, grouping,
and the per-partition loop. -/
def exportBody (cfg : Config) (orc : Oracles) (df1 : DF) (ti : Nat) (cutoff : Int) :
    RunResult :=
  if (ageFilter ti cutoff (contextNormalize df1)).data.isEmpty then ⟨[], [], [], none⟩
  else
    ⟨(partitionize ti (ageFilter ti cutoff (contextNormalize df1))).map Prod.fst,
      (runLoop cfg orc (partitionize ti (ageFilter ti cutoff (contextNormalize df1)))).partitions,
      (runLoop cfg orc (partitionize ti (ageFilter ti cutoff (contextNormalize df1)))).localFiles,
      (runLoop cfg orc (partitionize ti (ageFilter ti cutoff (contextNormalize df1)))).err⟩

/-- Model of export_data (main.py lines 63-102): read the table, coerce
the timestamp column to UTC datetimes, normalize the context column when
present, filter by age against a single run-wide clock, return a no-op
when nothing qualifies, otherwise group by calendar date and run the
per-partition loop. -/
def export_data (cfg : Config) (orc : Oracles) (df0 : DF) (now : Int) : RunResult :=
  match toDatetimeUTC df0 cfg.tsCol with
  | .error e => ⟨[], [], [], some e⟩
  | .ok df1 =>
    match df1.colIdx cfg.tsCol with
    | none => ⟨[], [], [], some (.keyError cfg.tsCol)⟩
    | some ti => exportBody cfg orc df1 ti (now - 3600 * cfg.minAgeHours)

/-! ### Startup / configuration validation (main.py lines 14-58) -/

def Env : Type := String → Option String

def requiredVars : List String :=
  ["MYSQL_HOST", "MYSQL_USER", "MYSQL_TABLE", "MYSQL_PORT", "MYSQL_PASSWORD",
   "MYSQL_DATABASE", "AWS_ACCESS_KEY_ID", "AWS_SECRET_ACCESS_KEY", "AWS_REGION",
   "S3_BUCKET_NAME"]

/-- The variables validate_env_vars treats as missing: unset or empty
(`not os.getenv(var)`). -/
def missingOf (env : Env) : List String :=
  requiredVars.filter (fun v => ((env v).getD ("")) == (""))

inductive StartErr where
  | intOfNone (var : String)
  | intParse (var : String)
  | envMissing (missing : List String)
  deriving DecidableEq

/-- Model of int(s) on a string: optional sign, at least one digit,
surrounding whitespace allowed; None models ValueError. -/
def parseIntStr (s : String) : Option Int :=
  let cs := stripWs s.data
  match cs with
  | [] => none
  | c :: cs2 =>
    if c = '-' then
      let p := takeDigits cs2
      if p.1.isEmpty || !p.2.isEmpty then none
      else some (-(digitsToNat 0 p.1 : Int))
    else
      let p := takeDigits (c :: cs2)
      if p.1.isEmpty || !p.2.isEmpty then none
      else some ((digitsToNat 0 p.1 : Int))

/-- int(os.getenv(var)): raises TypeError when the variable is unset and
ValueError when it does not parse as an integer. -/
def intGetenv (env : Env) (var : String) : Except StartErr Int :=
  match env var with
  | none => .error (.intOfNone var)
  | some s =>
    match parseIntStr s with
    | none => .error (.intParse var)
    | some n => .ok n

structure StartState where
  port : Int
  minAge : Int
  host : Option String
  user : Option String
  password : Option String
  database : Option String
  table : Option String
  tsColName : Option String
  exportFormat : Option String

/-- Model of validate_env_vars (main.py lines 40-56): one EnvironmentError
enumerating every missing required variable. -/
def validate_env_vars (env : Env) : Except StartErr Unit :=
  if (missingOf env).isEmpty then .ok () else .error (.envMissing (missingOf env))

/-- Model of the module top level (main.py lines 14-58), in source order:
the int() casts of MYSQL_PORT (line 16) and MIN_AGE_HOURS (line 24) run
first and can raise on their own; the SQLAlchemy engine is constructed
(line 27) without opening a connection; validate_env_vars runs last
(line 58).  CREATED_AT_DATE and EXPORT_FORMAT are merely read. -/
def startup (env : Env) : Except StartErr StartState :=
  match intGetenv env ("MYSQL_PORT") with
  | .error e => .error e
  | .ok port =>
    match intGetenv env ("MIN_AGE_HOURS") with
    | .error e => .error e
    | .ok minAge =>
      match validate_env_vars env with
      | .error e => .error e
      | .ok _ =>
        .ok ⟨port, minAge, env ("MYSQL_HOST"), env ("MYSQL_USER"),
          env ("MYSQL_PASSWORD"), env ("MYSQL_DATABASE"), env ("MYSQL_TABLE"),
          env ("CREATED_AT_DATE"), env ("EXPORT_FORMAT")⟩

/-- Build an environment from an association list. -/
def envOf (l : List (String × String)) : Env :=
  fun v => (l.find? (fun p => p.1 == v)).map Prod.snd

/-! ### Helper lemmas about columns and error shapes -/

theorem idxOf?_eq_none (c : String) (l : List String) (h : ¬ c ∈ l) : idxOf? c l = none := by
  induction l with
  | nil => rfl
  | cons x xs ih =>
    rw [idxOf?]
    rw [if_neg (by simp only [beq_iff_eq]; intro he; exact h (by simp [he]))]
    rw [ih (fun hm => h (by simp [hm]))]
    rfl

theorem idxOf?_append_self (c : String) (l : List String) (h : ¬ c ∈ l) :
    idxOf? c (l ++ [c]) = some l.length := by
  induction l with
  | nil => simp [idxOf?]
  | cons x xs ih =>
    rw [List.cons_append, idxOf?]
    rw [if_neg (by simp only [beq_iff_eq]; intro he; exact h (by simp [he]))]
    rw [ih (fun hm => h (by simp [hm]))]
    simp

theorem cleanCell_error (v : JVal) (e : PyErr) (h : cleanCell v = .error e) :
    e = .jsonDecode := by
  unfold cleanCell at h
  cases v <;> simp at h
  case jstr s =>
    split at h
    · split at h <;> simp at h
      exact h.symm
    · simp at h

theorem mapRowsE_clean_error (i : Nat) (rs : List (List JVal)) (e : PyErr)
    (h : mapRowsE i cleanCell rs = .error e) : e = .jsonDecode := by
  induction rs with
  | nil => simp [mapRowsE] at h
  | cons r rest ih =>
    rw [mapRowsE] at h
    cases hc : cleanCell (getCell r i) with
    | error e2 =>
      rw [hc] at h
      simp at h
      rw [← h]
      exact cleanCell_error _ _ hc
    | ok v =>
      rw [hc] at h
      dsimp only at h
      cases hrec : mapRowsE i cleanCell rest with
      | error e3 =>
        rw [hrec] at h
        simp at h
        subst h
        exact ih hrec
      | ok rs2 => rw [hrec] at h; simp at h

theorem mapColE_clean_error (df : DF) (c : String) (e : PyErr)
    (h : mapColE df c cleanCell = .error e) : e = .keyError c ∨ e = .jsonDecode := by
  unfold mapColE at h
  cases hidx : df.colIdx c with
  | none => rw [hidx] at h; simp at h; exact Or.inl h.symm
  | some i =>
    rw [hidx] at h
    dsimp only at h
    cases hm : mapRowsE i cleanCell df.data with
    | error e2 =>
      rw [hm] at h
      simp at h
      exact Or.inr (h ▸ mapRowsE_clean_error _ _ _ hm)
    | ok d => rw [hm] at h; simp at h

theorem clean_error_shape (columns : List String) :
    ∀ (df : DF) (e : PyErr), clean_nested_json_fields df columns = .error e →
    (∃ c, e = .keyError c) ∨ e = .jsonDecode := by
  induction columns with
  | nil => intro df e h; simp [clean_nested_json_fields] at h
  | cons c cs ih =>
    intro df e h
    rw [clean_nested_json_fields] at h
    cases hm : mapColE df c cleanCell with
    | error e2 =>
      rw [hm] at h
      simp at h
      rcases mapColE_clean_error _ _ _ hm with h1 | h1
      · exact Or.inl ⟨c, h ▸ h1⟩
      · exact Or.inr (h ▸ h1)
    | ok df2 =>
      rw [hm] at h
      dsimp only at h
      exact ih df2 e h

theorem export_as_json_error (df : DF) (e : PyErr) (h : export_as_json df = .error e) :
    (∃ c, e = .keyError c) ∨ e = .jsonDecode := by
  unfold export_as_json at h
  cases hc : clean_nested_json_fields df [ctxName] with
  | error e2 =>
    rw [hc] at h
    simp at h
    exact h ▸ clean_error_shape _ _ _ hc
  | ok df2 => rw [hc] at h; simp at h

theorem serializeGroup_error (cfg : Config) (g : DF) (e : PyErr)
    (h : serializeGroup cfg g = .error e) :
    (∃ c, e = .keyError c) ∨ e = .jsonDecode ∨ e = .valueFormat := by
  unfold serializeGroup at h
  split at h
  · cases hj : export_as_json g with
    | error e2 =>
      rw [hj] at h
      simp at h
      rcases export_as_json_error _ _ hj with h1 | h1
      · exact Or.inl (h ▸ h1)
      · exact Or.inr (Or.inl (h ▸ h1))
    | ok fd => rw [hj] at h; simp at h
  · split at h
    · simp at h
    · simp at h
      exact Or.inr (Or.inr h.symm)

theorem getLast?_cons_of_some {α : Type} (x : α) (l : List α) (p : α)
    (h : l.getLast? = some p) : (x :: l).getLast? = some p := by
  cases l with
  | nil => simp at h
  | cons y ys => rw [List.getLast?_cons_cons]; exact h

/-! ### Structural lemmas about the per-partition loop -/

theorem runLoop_delete_iff (cfg : Config) (orc : Oracles) :
    ∀ (groups : List (Int × DF)) (p : POut), p ∈ (runLoop cfg orc groups).partitions →
    p.deleteInvoked = p.uploadSuccess := by
  intro groups
  induction groups with
  | nil => intro p hp; simp [runLoop] at hp
  | cons g rest ih =>
    intro p hp
    obtain ⟨d, gdf⟩ := g
    rw [runLoop] at hp
    cases hser : serializeGroup cfg gdf with
    | error e => rw [hser] at hp; simp at hp
    | ok pr =>
      obtain ⟨ext, fd⟩ := pr
      rw [hser] at hp
      dsimp only at hp
      cases hup : orc.uploadOk d with
      | true =>
        rw [hup] at hp
        rw [if_pos rfl] at hp
        cases hdel : delete_uploaded_rows orc d gdf with
        | error e =>
          rw [hdel] at hp
          simp at hp
          rw [hp]
        | ok pr2 =>
          obtain ⟨skipped, ids⟩ := pr2
          rw [hdel] at hp
          dsimp only at hp
          rcases List.mem_cons.mp hp with h1 | h1
          · rw [h1]
          · exact ih p h1
      | false =>
        rw [hup] at hp
        rw [if_neg (by simp)] at hp
        dsimp only at hp
        rcases List.mem_cons.mp hp with h1 | h1
        · rw [h1]
        · exact ih p h1

theorem runLoop_files (cfg : Config) (orc : Oracles) :
    ∀ (groups : List (Int × DF)) (p : POut), p ∈ (runLoop cfg orc groups).partitions →
    ∃ f ∈ (runLoop cfg orc groups).localFiles, f.day = p.day := by
  intro groups
  induction groups with
  | nil => intro p hp; simp [runLoop] at hp
  | cons g rest ih =>
    intro p hp
    obtain ⟨d, gdf⟩ := g
    rw [runLoop] at hp
    rw [runLoop]
    cases hser : serializeGroup cfg gdf with
    | error e => rw [hser] at hp; simp at hp
    | ok pr =>
      obtain ⟨ext, fd⟩ := pr
      rw [hser] at hp
      dsimp only at hp ⊢
      cases hup : orc.uploadOk d with
      | true =>
        rw [hup] at hp
        rw [if_pos rfl] at hp
        rw [if_pos rfl]
        cases hdel : delete_uploaded_rows orc d gdf with
        | error e =>
          rw [hdel] at hp
          simp at hp
          exact ⟨⟨d, ext, fd⟩, by simp, by rw [hp]⟩
        | ok pr2 =>
          obtain ⟨skipped, ids⟩ := pr2
          rw [hdel] at hp
          dsimp only at hp ⊢
          rcases List.mem_cons.mp hp with h1 | h1
          · exact ⟨⟨d, ext, fd⟩, by simp, by rw [h1]⟩
          · obtain ⟨f, hf1, hf2⟩ := ih p h1
            exact ⟨f, by simp [hf1], hf2⟩
      | false =>
        rw [hup] at hp
        rw [if_neg (by simp)] at hp
        rw [if_neg (by simp)]
        dsimp only at hp ⊢
        rcases List.mem_cons.mp hp with h1 | h1
        · exact ⟨⟨d, ext, fd⟩, by simp, by rw [h1]⟩
        · obtain ⟨f, hf1, hf2⟩ := ih p h1
          exact ⟨f, by simp [hf1], hf2⟩

theorem runLoop_days_take (cfg : Config) (orc : Oracles) :
    ∀ (groups : List (Int × DF)),
    (runLoop cfg orc groups).partitions.map POut.day =
      (groups.map Prod.fst).take (runLoop cfg orc groups).partitions.length := by
  intro groups
  induction groups with
  | nil => rfl
  | cons g rest ih =>
    obtain ⟨d, gdf⟩ := g
    rw [runLoop]
    cases hser : serializeGroup cfg gdf with
    | error e => simp
    | ok pr =>
      obtain ⟨ext, fd⟩ := pr
      dsimp only
      cases hup : orc.uploadOk d with
      | true =>
        rw [if_pos rfl]
        cases hdel : delete_uploaded_rows orc d gdf with
        | error e => simp
        | ok pr2 =>
          obtain ⟨skipped, ids⟩ := pr2
          dsimp only
          simp only [List.map_cons, List.length_cons, List.map, List.take_succ_cons]
          rw [ih]
      | false =>
        rw [if_neg (by simp)]
        dsimp only
        simp only [List.map_cons, List.length_cons, List.map, List.take_succ_cons]
        rw [ih]

theorem runLoop_deleteFail (cfg : Config) (orc : Oracles) :
    ∀ (groups : List (Int × DF)) (d : Int),
    (runLoop cfg orc groups).err = some (.deleteFail d) →
    ∃ p, (runLoop cfg orc groups).partitions.getLast? = some p ∧ p.day = d ∧
      p.uploadSuccess = true ∧ p.deleteInvoked = true ∧ p.deletedIds = [] ∧
      (runLoop cfg orc groups).partitions.length ≤ groups.length := by
  intro groups
  induction groups with
  | nil => intro d h; simp [runLoop] at h
  | cons g rest ih =>
    intro d h
    obtain ⟨dy, gdf⟩ := g
    rw [runLoop] at h ⊢
    cases hser : serializeGroup cfg gdf with
    | error e =>
      rw [hser] at h
      simp at h
      rcases serializeGroup_error _ _ _ hser with ⟨c, h1⟩ | h1 | h1 <;> (rw [h1] at h; cases h)
    | ok pr =>
      obtain ⟨ext, fd⟩ := pr
      rw [hser] at h
      dsimp only at h ⊢
      cases hup : orc.uploadOk dy with
      | true =>
        rw [hup] at h
        rw [if_pos rfl] at h
        rw [if_pos rfl]
        cases hdel : delete_uploaded_rows orc dy gdf with
        | error e =>
          rw [hdel] at h
          simp at h
          have hed : e = .deleteFail dy := by
            unfold delete_uploaded_rows at hdel
            cases hidx : gdf.colIdx idName with
            | none => rw [hidx] at hdel; simp at hdel
            | some i =>
              rw [hidx] at hdel
              dsimp only at hdel
              split at hdel
              · simp at hdel
              · simp at hdel; exact hdel.symm
          have hdd : dy = d := by
            have h3 : PyErr.deleteFail dy = PyErr.deleteFail d := hed.symm.trans h
            exact PyErr.deleteFail.inj h3
          refine ⟨⟨dy, true, true, false, []⟩, by simp, by simp [hdd], rfl, rfl, rfl, by simp⟩
        | ok pr2 =>
          obtain ⟨skipped, ids⟩ := pr2
          rw [hdel] at h
          dsimp only at h ⊢
          obtain ⟨p, hp1, hp2, hp3, hp4, hp5, hp6⟩ := ih d h
          exact ⟨p, getLast?_cons_of_some _ _ _ hp1, hp2, hp3, hp4, hp5, by simp; omega⟩
      | false =>
        rw [hup] at h
        rw [if_neg (by simp)] at h
        rw [if_neg (by simp)]
        dsimp only at h ⊢
        obtain ⟨p, hp1, hp2, hp3, hp4, hp5, hp6⟩ := ih d h
        exact ⟨p, getLast?_cons_of_some _ _ _ hp1, hp2, hp3, hp4, hp5, by simp; omega⟩

theorem toDatetime_ok (df : DF) (c : String) (df1 : DF)
    (h : toDatetimeUTC df c = .ok df1) : df1 = df := by
  unfold toDatetimeUTC at h
  cases hidx : df.colIdx c with
  | none => rw [hidx] at h; simp at h
  | some i =>
    rw [hidx] at h
    dsimp only at h
    split at h
    · simp at h; exact h.symm
    · simp at h

theorem toDatetime_error (df : DF) (c : String) (e : PyErr)
    (h : toDatetimeUTC df c = .error e) : e = .keyError c ∨ e = .typeTs := by
  unfold toDatetimeUTC at h
  cases hidx : df.colIdx c with
  | none => rw [hidx] at h; simp at h; exact Or.inl h.symm
  | some i =>
    rw [hidx] at h
    dsimp only at h
    split at h
    · simp at h
    · simp at h; exact Or.inr h.symm

/-- Case analysis on a whole run: startup-stage error, empty no-op, or
the per-partition loop over the computed groups. -/
theorem export_data_cases (cfg : Config) (orc : Oracles) (df0 : DF) (now : Int) :
    (∃ e, export_data cfg orc df0 now = ⟨[], [], [], some e⟩ ∧
      (e = .keyError cfg.tsCol ∨ e = .typeTs))
    ∨ export_data cfg orc df0 now = ⟨[], [], [], none⟩
    ∨ (∃ groups, export_data cfg orc df0 now =
        ⟨groups.map Prod.fst, (runLoop cfg orc groups).partitions,
          (runLoop cfg orc groups).localFiles, (runLoop cfg orc groups).err⟩) := by
  unfold export_data
  cases htd : toDatetimeUTC df0 cfg.tsCol with
  | error e => exact Or.inl ⟨e, rfl, toDatetime_error _ _ _ htd⟩
  | ok df1 =>
    dsimp only
    cases hti : df1.colIdx cfg.tsCol with
    | none => exact Or.inl ⟨.keyError cfg.tsCol, rfl, Or.inl rfl⟩
    | some ti =>
      dsimp only
      unfold exportBody
      split
      · exact Or.inr (Or.inl rfl)
      · exact Or.inr (Or.inr
          ⟨partitionize ti (ageFilter ti (now - 3600 * cfg.minAgeHours)
            (contextNormalize df1)), rfl⟩)

theorem runLoop_parquet_err (cfg : Config) (orc : Oracles) (hf : cfg.fmt = fmtParquet) :
    ∀ (groups : List (Int × DF)) (e : PyErr), (runLoop cfg orc groups).err = some e →
    ∃ d, e = .deleteFail d := by
  intro groups
  induction groups with
  | nil => intro e h; simp [runLoop] at h
  | cons g rest ih =>
    intro e h
    obtain ⟨dy, gdf⟩ := g
    rw [runLoop] at h
    have hser : serializeGroup cfg gdf = .ok (fmtParquet, export_as_parquet gdf) := by
      unfold serializeGroup
      rw [if_neg (by rw [hf]; simp [fmtParquet, fmtJson]), if_pos hf]
    rw [hser] at h
    dsimp only at h
    cases hup : orc.uploadOk dy with
    | true =>
      rw [hup] at h
      rw [if_pos rfl] at h
      cases hdel : delete_uploaded_rows orc dy gdf with
      | error e2 =>
        rw [hdel] at h
        simp at h
        unfold delete_uploaded_rows at hdel
        cases hidx : gdf.colIdx idName with
        | none => rw [hidx] at hdel; simp at hdel
        | some i =>
          rw [hidx] at hdel
          dsimp only at hdel
          split at hdel
          · simp at hdel
          · simp at hdel
            exact ⟨dy, by rw [← h, ← hdel]⟩
      | ok pr2 =>
        obtain ⟨skipped, ids⟩ := pr2
        rw [hdel] at h
        dsimp only at h
        exact ih e h
    | false =>
      rw [hup] at h
      rw [if_neg (by simp)] at h
      dsimp only at h
      exact ih e h

/-! ### Concrete run fixtures used by witnesses and counterexamples -/

def cfgParquetW : Config := ⟨"tbl", "ts", fmtParquet, 1⟩
def cfgJsonW : Config := ⟨"tbl", "ts", fmtJson, 1⟩
def cfgCsvW : Config := ⟨"tbl", "ts", "csv", 1⟩
def orcAllOk : Oracles := ⟨fun _ => true, fun _ => true⟩
def orcUploadFail : Oracles := ⟨fun _ => false, fun _ => true⟩
def orcDeleteFail0 : Oracles := ⟨fun _ => true, fun d => decide (d ≠ 0)⟩
def dfOneRow : DF := ⟨[idName, "ts"], [[.jint 1, .jint 1000]]⟩
def dfTwoDays : DF := ⟨[idName, "ts"], [[.jint 1, .jint 1000], [.jint 2, .jint 90000]]⟩
def dfBadCtx : DF := ⟨[idName, "ts", ctxName], [[.jint 1, .jint 0, .jstr ("\x7bbad")]]⟩
def dfEmptyT : DF := ⟨[idName, "ts"], []⟩
def nowW : Int := 1000000

/-! ### Claims -/

/-- Claim C1: for every partition processed in a run, the Deletion
Confirmer (delete_uploaded_rows) is invoked on that partition's row set
iff the upload of that partition's file reported success; in particular,
on upload failure no delete is ever attempted for that partition. -/
theorem claim_C1 (cfg : Config) (orc : Oracles) (df0 : DF) (now : Int) :
    ∀ p ∈ (export_data cfg orc df0 now).partitions,
    p.deleteInvoked = p.uploadSuccess := by
  intro p hp
  rcases export_data_cases cfg orc df0 now with ⟨e, hR, _⟩ | hR | ⟨groups, hR⟩ <;>
    rw [hR] at hp
  · simp at hp
  · simp at hp
  · exact runLoop_delete_iff cfg orc groups p hp

/-- Witness for claim C1 at a concrete run whose only partition's upload
fails: no delete is invoked for it. -/
theorem claim_C1_witness :
    (⟨0, false, false, false, []⟩ : POut) ∈
      (export_data cfgParquetW orcUploadFail dfOneRow nowW).partitions ∧
    (⟨0, false, false, false, []⟩ : POut).deleteInvoked =
      (⟨0, false, false, false, []⟩ : POut).uploadSuccess := by
  have h : (export_data cfgParquetW orcUploadFail dfOneRow nowW).partitions =
      [⟨0, false, false, false, []⟩] := rfl
  have hm : (⟨0, false, false, false, []⟩ : POut) ∈
      (export_data cfgParquetW orcUploadFail dfOneRow nowW).partitions := by
    rw [h]
    exact List.mem_singleton.mpr rfl
  exact ⟨hm, claim_C1 cfgParquetW orcUploadFail dfOneRow nowW _ hm⟩

/-- Counterexample to claim C6 as stated: a run in which the single
partition completes fully (upload reported success, delete invoked and
performed, run ends without error) and yet the locally created export
file is still present after the run — the code never removes local
files. -/
theorem claim_C6_counterexample :
    (export_data cfgParquetW orcAllOk dfOneRow nowW).partitions =
      [⟨0, true, true, false, [.jint 1]⟩] ∧
    (export_data cfgParquetW orcAllOk dfOneRow nowW).err = none ∧
    (export_data cfgParquetW orcAllOk dfOneRow nowW).localFiles.map LocalFile.day = [0] ∧
    (export_data cfgParquetW orcAllOk dfOneRow nowW).localFiles.length = 1 :=
  ⟨rfl, rfl, rfl, rfl⟩

/-- Claim C6 amended: the run never removes local files; every processed
partition (successful or not) still has its serialized file in the local
file set when the run ends. -/
theorem claim_C6_amended (cfg : Config) (orc : Oracles) (df0 : DF) (now : Int) :
    ∀ p ∈ (export_data cfg orc df0 now).partitions,
    ∃ f ∈ (export_data cfg orc df0 now).localFiles, f.day = p.day := by
  intro p hp
  rcases export_data_cases cfg orc df0 now with ⟨e, hR, _⟩ | hR | ⟨groups, hR⟩ <;>
    rw [hR] at hp ⊢
  · simp at hp
  · simp at hp
  · exact runLoop_files cfg orc groups p hp

/-- Witness for the amended claim C6: in a fully successful concrete run
the partition's file is still among the local files afterwards. -/
theorem claim_C6_witness :
    (⟨0, true, true, false, [.jint 1]⟩ : POut) ∈
      (export_data cfgParquetW orcAllOk dfOneRow nowW).partitions ∧
    ∃ f ∈ (export_data cfgParquetW orcAllOk dfOneRow nowW).localFiles,
      f.day = (⟨0, true, true, false, [.jint 1]⟩ : POut).day := by
  have h : (export_data cfgParquetW orcAllOk dfOneRow nowW).partitions =
      [⟨0, true, true, false, [.jint 1]⟩] := rfl
  have hm : (⟨0, true, true, false, [.jint 1]⟩ : POut) ∈
      (export_data cfgParquetW orcAllOk dfOneRow nowW).partitions := by
    rw [h]
    exact List.mem_singleton.mpr rfl
  exact ⟨hm, claim_C6_amended cfgParquetW orcAllOk dfOneRow nowW _ hm⟩

/-- Counterexample to claim C4 as stated: with two planned partitions
(days 0 and 1) and a delete failure on day 0, the run aborts — day 1 is
never processed — so the failure is not isolated to its partition and the
run does not continue. -/
theorem claim_C4_counterexample :
    (export_data cfgParquetW orcDeleteFail0 dfTwoDays nowW).err =
      some (.deleteFail 0) ∧
    (export_data cfgParquetW orcDeleteFail0 dfTwoDays nowW).partitionDays = [0, 1] ∧
    (export_data cfgParquetW orcDeleteFail0 dfTwoDays nowW).partitions.map POut.day = [0] ∧
    (export_data cfgParquetW orcDeleteFail0 dfTwoDays nowW).partitions.map
      POut.deletedIds = [[]] :=
  ⟨rfl, rfl, rfl, rfl⟩

/-- Claim C4 amended: a transactional delete failure leaves no partial
delete (the failing partition records an empty deleted-id set, the
transaction having rolled back) and is recorded against exactly the
failing partition, but it is fatal: the exception propagates, the run
stops at that partition, and the processed partitions form an initial
segment of the planned partition days. -/
theorem claim_C4_amended (cfg : Config) (orc : Oracles) (df0 : DF) (now : Int) (d : Int)
    (h : (export_data cfg orc df0 now).err = some (.deleteFail d)) :
    ∃ p, (export_data cfg orc df0 now).partitions.getLast? = some p ∧ p.day = d ∧
      p.uploadSuccess = true ∧ p.deleteInvoked = true ∧ p.deletedIds = [] ∧
      (export_data cfg orc df0 now).partitions.map POut.day =
        (export_data cfg orc df0 now).partitionDays.take
          (export_data cfg orc df0 now).partitions.length ∧
      (export_data cfg orc df0 now).partitions.length ≤
        (export_data cfg orc df0 now).partitionDays.length := by
  rcases export_data_cases cfg orc df0 now with ⟨e, hR, hsh⟩ | hR | ⟨groups, hR⟩ <;>
    rw [hR] at h ⊢
  · simp at h
    rcases hsh with h1 | h1 <;> (rw [h1] at h; cases h)
  · simp at h
  · dsimp only at h ⊢
    obtain ⟨p, hp1, hp2, hp3, hp4, hp5, hp6⟩ := runLoop_deleteFail cfg orc groups d h
    refine ⟨p, hp1, hp2, hp3, hp4, hp5, runLoop_days_take cfg orc groups, ?_⟩
    rw [List.length_map]
    exact hp6

/-- Witness for the amended claim C4 at the concrete failing run. -/
theorem claim_C4_witness :
    (export_data cfgParquetW orcDeleteFail0 dfTwoDays nowW).err =
      some (.deleteFail 0) ∧
    ∃ p, (export_data cfgParquetW orcDeleteFail0 dfTwoDays nowW).partitions.getLast? =
        some p ∧ p.day = 0 ∧ p.uploadSuccess = true ∧ p.deleteInvoked = true ∧
        p.deletedIds = [] ∧
        (export_data cfgParquetW orcDeleteFail0 dfTwoDays nowW).partitions.map POut.day =
          (export_data cfgParquetW orcDeleteFail0 dfTwoDays nowW).partitionDays.take
            (export_data cfgParquetW orcDeleteFail0 dfTwoDays nowW).partitions.length ∧
        (export_data cfgParquetW orcDeleteFail0 dfTwoDays nowW).partitions.length ≤
          (export_data cfgParquetW orcDeleteFail0 dfTwoDays nowW).partitionDays.length :=
  ⟨rfl, claim_C4_amended cfgParquetW orcDeleteFail0 dfTwoDays nowW 0 rfl⟩

/-- Counterexample to claim C9 as stated: with an unsupported format
selector and an input table with no qualifying rows, the run does not
fail at all — it returns the informational no-op, raising no
configuration error. -/
theorem claim_C9_counterexample :
    (export_data cfgCsvW orcAllOk dfEmptyT nowW).err = none ∧
    (export_data cfgCsvW orcAllOk dfEmptyT nowW).localFiles = [] ∧
    (export_data cfgCsvW orcAllOk dfEmptyT nowW).partitions = [] :=
  ⟨rfl, rfl, rfl⟩

/-- Claim C9 amended: with an unsupported format selector, the run fails
with ValueError before any file is created — but only when at least one
partition was formed, i.e. after the query, the age filter and the
partitioning have already run; with no qualifying rows no error is raised
at all. -/
theorem claim_C9_amended (cfg : Config) (orc : Oracles) (df0 : DF) (now : Int)
    (h1 : cfg.fmt ≠ fmtJson) (h2 : cfg.fmt ≠ fmtParquet)
    (h3 : (export_data cfg orc df0 now).partitionDays ≠ []) :
    (export_data cfg orc df0 now).err = some .valueFormat ∧
    (export_data cfg orc df0 now).localFiles = [] ∧
    (export_data cfg orc df0 now).partitions = [] := by
  rcases export_data_cases cfg orc df0 now with ⟨e, hR, _⟩ | hR | ⟨groups, hR⟩ <;>
    rw [hR] at h3 ⊢
  · simp at h3
  · simp at h3
  · dsimp only at h3 ⊢
    have hg : groups ≠ [] := by
      intro hg
      rw [hg] at h3
      simp at h3
    obtain ⟨g, gs, rfl⟩ := List.exists_cons_of_ne_nil hg
    obtain ⟨gd, gdf⟩ := g
    have hser : serializeGroup cfg gdf = .error .valueFormat := by
      unfold serializeGroup
      rw [if_neg h1, if_neg h2]
    rw [runLoop, hser]
    exact ⟨rfl, rfl, rfl⟩

/-- Witness for the amended claim C9: a concrete run with format csv and
one qualifying row fails with ValueError after partitioning, creating no
file. -/
theorem claim_C9_witness :
    cfgCsvW.fmt ≠ fmtJson ∧ cfgCsvW.fmt ≠ fmtParquet ∧
    (export_data cfgCsvW orcAllOk dfOneRow nowW).partitionDays ≠ [] ∧
    ((export_data cfgCsvW orcAllOk dfOneRow nowW).err = some .valueFormat ∧
      (export_data cfgCsvW orcAllOk dfOneRow nowW).localFiles = [] ∧
      (export_data cfgCsvW orcAllOk dfOneRow nowW).partitions = []) := by
  have hd : (export_data cfgCsvW orcAllOk dfOneRow nowW).partitionDays = [0] := rfl
  have h3 : (export_data cfgCsvW orcAllOk dfOneRow nowW).partitionDays ≠ [] := by
    rw [hd]
    simp
  exact ⟨by decide, by decide, h3,
    claim_C9_amended cfgCsvW orcAllOk dfOneRow nowW (by decide) (by decide) h3⟩

theorem contextNormalize_cols (df : DF) : (contextNormalize df).cols = df.cols := by
  unfold contextNormalize
  cases df.colIdx ctxName <;> rfl

theorem partitionize_mem_cols (ti : Nat) (df : DF) :
    ∀ p ∈ partitionize ti df, p.2.cols = (setOrAppendCol df cdName (extCell ti)).cols := by
  intro p hp
  unfold partitionize at hp
  obtain ⟨d, _, rfl⟩ := List.mem_map.mp hp
  rfl

theorem setOrAppendCol_ctx_free (df : DF) (f : List JVal → JVal)
    (h : ¬ ctxName ∈ df.cols) : ¬ ctxName ∈ (setOrAppendCol df cdName f).cols := by
  unfold setOrAppendCol
  cases df.colIdx cdName with
  | some i => exact h
  | none =>
    intro hm
    rcases List.mem_append.mp hm with h1 | h1
    · exact h h1
    · rw [List.mem_singleton] at h1
      revert h1
      decide

/-- Claim C10: a partition lacking a context column cannot be serialized
in the JSON format — export_as_json unconditionally accesses the context
column and raises a KeyError, aborting the run — while the parquet path
has no such requirement: JSON export succeeds only on frames with a
context column, and a parquet-format run never fails with a context
KeyError. -/
theorem claim_C10 :
    (∀ df : DF, ¬ ctxName ∈ df.cols →
      export_as_json df = .error (.keyError ctxName))
    ∧ (∀ (df : DF) (fd : FileData), export_as_json df = .ok fd → ctxName ∈ df.cols)
    ∧ (∀ (cfg : Config) (orc : Oracles) (df0 : DF) (now : Int),
        cfg.fmt = fmtJson → ¬ ctxName ∈ df0.cols →
        (export_data cfg orc df0 now).partitionDays ≠ [] →
        (export_data cfg orc df0 now).err = some (.keyError ctxName) ∧
        (export_data cfg orc df0 now).partitions = [] ∧
        (export_data cfg orc df0 now).localFiles = [])
    ∧ (∀ (cfg : Config) (orc : Oracles) (df0 : DF) (now : Int),
        cfg.fmt = fmtParquet → cfg.tsCol ≠ ctxName →
        (export_data cfg orc df0 now).err ≠ some (.keyError ctxName)) := by
  have part1 : ∀ df : DF, ¬ ctxName ∈ df.cols →
      export_as_json df = .error (.keyError ctxName) := by
    intro df h
    have hm : mapColE df ctxName cleanCell = .error (.keyError ctxName) := by
      unfold mapColE
      rw [show df.colIdx ctxName = none from idxOf?_eq_none _ _ h]
    have hc : clean_nested_json_fields df [ctxName] = .error (.keyError ctxName) := by
      rw [clean_nested_json_fields, hm]
    unfold export_as_json
    rw [hc]
  refine ⟨part1, ?_, ?_, ?_⟩
  · intro df fd h
    by_cases hctx : ctxName ∈ df.cols
    · exact hctx
    · rw [part1 df hctx] at h
      cases h
  · intro cfg orc df0 now hf hctx h3
    cases htd : toDatetimeUTC df0 cfg.tsCol with
    | error e =>
      have hR : export_data cfg orc df0 now = ⟨[], [], [], some e⟩ := by
        unfold export_data
        rw [htd]
      rw [hR] at h3
      simp at h3
    | ok df1 =>
      have hdf1 : df1 = df0 := toDatetime_ok _ _ _ htd
      subst hdf1
      cases hti : df1.colIdx cfg.tsCol with
      | none =>
        have hR : export_data cfg orc df1 now = ⟨[], [], [], some (.keyError cfg.tsCol)⟩ := by
          unfold export_data
          rw [htd]
          dsimp only
          rw [hti]
        rw [hR] at h3
        simp at h3
      | some ti =>
        have hR : export_data cfg orc df1 now =
            exportBody cfg orc df1 ti (now - 3600 * cfg.minAgeHours) := by
          unfold export_data
          rw [htd]
          dsimp only
          rw [hti]
        rw [hR] at h3 ⊢
        unfold exportBody at h3 ⊢
        by_cases hemp : (ageFilter ti (now - 3600 * cfg.minAgeHours)
            (contextNormalize df1)).data.isEmpty = true
        · rw [if_pos hemp] at h3
          simp at h3
        · rw [if_neg hemp] at h3 ⊢
          dsimp only at h3 ⊢
          have hg : partitionize ti (ageFilter ti (now - 3600 * cfg.minAgeHours)
              (contextNormalize df1)) ≠ [] := by
            intro hg
            rw [hg] at h3
            simp at h3
          obtain ⟨g, gs, hgs⟩ := List.exists_cons_of_ne_nil hg
          rw [hgs]
          obtain ⟨gd, gdf⟩ := g
          have hcols : ¬ ctxName ∈ gdf.cols := by
            have h1 : ((gd, gdf) : Int × DF).2.cols =
                (setOrAppendCol (ageFilter ti (now - 3600 * cfg.minAgeHours)
                  (contextNormalize df1)) cdName (extCell ti)).cols :=
              partitionize_mem_cols ti _ _ (by rw [hgs]; exact List.mem_cons_self _ _)
            dsimp only at h1
            rw [h1]
            apply setOrAppendCol_ctx_free
            show ¬ ctxName ∈ (ageFilter ti (now - 3600 * cfg.minAgeHours)
              (contextNormalize df1)).cols
            have h2 : (ageFilter ti (now - 3600 * cfg.minAgeHours)
                (contextNormalize df1)).cols = df1.cols := by
              unfold ageFilter
              dsimp only
              exact contextNormalize_cols df1
            rw [h2]
            exact hctx
          have hser : serializeGroup cfg gdf = .error (.keyError ctxName) := by
            unfold serializeGroup
            rw [if_pos hf, part1 gdf hcols]
          rw [runLoop, hser]
          exact ⟨rfl, rfl, rfl⟩
  · intro cfg orc df0 now hf hts
    rcases export_data_cases cfg orc df0 now with ⟨e, hR, hsh⟩ | hR | ⟨groups, hR⟩ <;>
      rw [hR]
    · dsimp only
      intro h
      rcases hsh with h1 | h1 <;> rw [h1] at h
      · exact hts (PyErr.keyError.inj (Option.some.inj h))
      · cases Option.some.inj h
    · simp
    · dsimp only
      intro h
      obtain ⟨d, hd⟩ := runLoop_parquet_err cfg orc hf groups _ h
      cases hd

/-- Witness for claim C10: a JSON-format run over a table without a
context column aborts with a context KeyError; the same table exports
fine as parquet. -/
theorem claim_C10_witness :
    (¬ ctxName ∈ dfOneRow.cols) ∧
    export_as_json dfOneRow = .error (.keyError ctxName) ∧
    ((export_data cfgJsonW orcAllOk dfOneRow nowW).partitionDays ≠ [] ∧
      (export_data cfgJsonW orcAllOk dfOneRow nowW).err = some (.keyError ctxName)) ∧
    (export_data cfgParquetW orcAllOk dfOneRow nowW).err ≠
      some (.keyError ctxName) := by
  have hctx : ¬ ctxName ∈ dfOneRow.cols := by decide
  have hd : (export_data cfgJsonW orcAllOk dfOneRow nowW).partitionDays = [0] := rfl
  have h3 : (export_data cfgJsonW orcAllOk dfOneRow nowW).partitionDays ≠ [] := by
    rw [hd]
    simp
  refine ⟨hctx, claim_C10.1 dfOneRow hctx, ⟨h3, ?_⟩, ?_⟩
  · exact (claim_C10.2.2.1 cfgJsonW orcAllOk dfOneRow nowW rfl hctx h3).1
  · exact claim_C10.2.2.2 cfgParquetW orcAllOk dfOneRow nowW rfl (by decide)

/-- Counterexample to claim C3 as stated: a JSON-format run whose context
value is the malformed brace-prefixed string left intact by
double_json_load; clean_nested_json_fields then re-decodes it without a
guard, raises, and aborts the run instead of falling back to the raw
value. -/
theorem claim_C3_counterexample :
    (export_data cfgJsonW orcAllOk dfBadCtx nowW).err = some .jsonDecode ∧
    (export_data cfgJsonW orcAllOk dfBadCtx nowW).partitions = [] ∧
    (export_data cfgJsonW orcAllOk dfBadCtx nowW).localFiles = [] :=
  ⟨rfl, rfl, rfl⟩

/-- Claim C3 amended: double_json_load itself never raises — a decode
failure at either stage returns the original value unchanged, and
non-string values pass through — and the parquet serialization path can
never produce a JSON-decode error; but the JSON path's
clean_nested_json_fields re-decodes brace-prefixed strings without a
guard and so can raise (see the counterexample). -/
theorem claim_C3_amended :
    (∀ s : String, jsonLoads s = none → double_json_load (.jstr s) = .jstr s)
    ∧ (∀ s t : String, jsonLoads s = some (.jstr t) → jsonLoads t = none →
        double_json_load (.jstr s) = .jstr s)
    ∧ (∀ (s t : String) (u : JVal), jsonLoads s = some (.jstr t) →
        jsonLoads t = some u → double_json_load (.jstr s) = u)
    ∧ (∀ (s : String) (u : JVal), jsonLoads s = some u → (∀ t, u ≠ .jstr t) →
        double_json_load (.jstr s) = u)
    ∧ (∀ v : JVal, (∀ s, v ≠ .jstr s) → double_json_load v = v)
    ∧ (∀ (cfg : Config) (orc : Oracles) (df0 : DF) (now : Int),
        cfg.fmt = fmtParquet →
        (export_data cfg orc df0 now).err ≠ some .jsonDecode) := by
  refine ⟨?_, ?_, ?_, ?_, ?_, ?_⟩
  · intro s h
    unfold double_json_load
    dsimp only
    rw [h]
  · intro s t h1 h2
    unfold double_json_load
    dsimp only
    rw [h1]
    dsimp only
    rw [h2]
  · intro s t u h1 h2
    unfold double_json_load
    dsimp only
    rw [h1]
    dsimp only
    rw [h2]
  · intro s u h1 h2
    unfold double_json_load
    dsimp only
    rw [h1]
    cases u with
    | jstr t => exact absurd rfl (h2 t)
    | jnull => rfl
    | jbool b => rfl
    | jint i => rfl
    | jarr xs => rfl
    | jobj fs => rfl
  · intro v h
    cases v with
    | jstr s => exact absurd rfl (h s)
    | jnull => rfl
    | jbool b => rfl
    | jint i => rfl
    | jarr xs => rfl
    | jobj fs => rfl
  · intro cfg orc df0 now hf
    rcases export_data_cases cfg orc df0 now with ⟨e, hR, hsh⟩ | hR | ⟨groups, hR⟩ <;>
      rw [hR]
    · dsimp only
      intro h
      rcases hsh with h1 | h1 <;> rw [h1] at h <;> cases Option.some.inj h
    · simp
    · dsimp only
      intro h
      obtain ⟨d, hd⟩ := runLoop_parquet_err cfg orc hf groups _ h
      cases hd

/-- Witness for the amended claim C3 at concrete inputs: a plain string
fails the first decode and is returned unchanged; a doubly encoded string
whose inner decode fails is returned unchanged; a non-string passes
through; a parquet run cannot raise a decode error. -/
theorem claim_C3_witness :
    (jsonLoads ("xy") = none ∧ double_json_load (.jstr ("xy")) = .jstr ("xy")) ∧
    (jsonLoads ("\"\x7bzz\"") = some (.jstr ("\x7bzz")) ∧ jsonLoads ("\x7bzz") = none ∧
      double_json_load (.jstr ("\"\x7bzz\"")) = .jstr ("\"\x7bzz\"")) ∧
    double_json_load (.jint 7) = .jint 7 ∧
    (export_data cfgParquetW orcAllOk dfOneRow nowW).err ≠ some .jsonDecode := by
  refine ⟨⟨rfl, claim_C3_amended.1 ("xy") rfl⟩,
    ⟨rfl, rfl, claim_C3_amended.2.1 ("\"\x7bzz\"") ("\x7bzz") rfl rfl⟩,
    claim_C3_amended.2.2.2.2.1 (.jint 7) (fun s h => JVal.noConfusion h), ?_⟩
  exact claim_C3_amended.2.2.2.2.2 cfgParquetW orcAllOk dfOneRow nowW rfl

/-- Claim C8: the nested-field normalizer maps the double-encoded JSON
string (a quoted object whose inner quotes are escaped) to the structured
object with field a equal to 1, and maps a plain non-JSON string value
such as hello to itself unchanged. -/
theorem claim_C8 :
    double_json_load (.jstr ("\"\x7b\\\"a\\\":1\x7d\"")) = .jobj [(("a"), .jint 1)] ∧
    double_json_load (.jstr ("hello")) = .jstr ("hello") :=
  ⟨rfl, rfl⟩

def envNoPortL : List (String × String) :=
  [("MYSQL_HOST", "h"), ("MYSQL_USER", "u"), ("MYSQL_TABLE", "t"),
   ("MYSQL_PASSWORD", "p"), ("MYSQL_DATABASE", "d"), ("AWS_ACCESS_KEY_ID", "k"),
   ("AWS_SECRET_ACCESS_KEY", "s"), ("AWS_REGION", "r"), ("S3_BUCKET_NAME", "b"),
   ("MIN_AGE_HOURS", "24"), ("CREATED_AT_DATE", "ts"), ("EXPORT_FORMAT", "json")]

def envNoHostL : List (String × String) :=
  [("MYSQL_USER", "u"), ("MYSQL_TABLE", "t"), ("MYSQL_PORT", "3306"),
   ("MYSQL_PASSWORD", "p"), ("MYSQL_DATABASE", "d"), ("AWS_ACCESS_KEY_ID", "k"),
   ("AWS_SECRET_ACCESS_KEY", "s"), ("AWS_REGION", "r"), ("S3_BUCKET_NAME", "b"),
   ("MIN_AGE_HOURS", "24"), ("CREATED_AT_DATE", "ts"), ("EXPORT_FORMAT", "json")]

/-- Counterexample to claim C7 as stated: with every setting present
except MYSQL_PORT — a required setting — startup dies in the int() cast
at line 16 with a TypeError, not with the enumerated
missing-variables EnvironmentError the claim requires. -/
theorem claim_C7_counterexample :
    startup (envOf envNoPortL) = .error (.intOfNone ("MYSQL_PORT")) ∧
    startup (envOf envNoPortL) ≠ .error (.envMissing [("MYSQL_PORT")]) := by
  refine ⟨rfl, ?_⟩
  intro he
  rw [show startup (envOf envNoPortL) = .error (.intOfNone ("MYSQL_PORT")) from rfl] at he
  exact StartErr.noConfusion (Except.error.inj he)

/-- Claim C7 amended: provided MYSQL_PORT and MIN_AGE_HOURS are set to
parseable integers (their int() casts at lines 16 and 24 run first and
fail on their own, without any enumeration), a startup with any of the
ten checked variables missing fails with a single EnvironmentError
enumerating exactly the missing ones, before any database connection is
opened; when none of the ten is missing, startup succeeds even if
CREATED_AT_DATE or EXPORT_FORMAT is unset — those are never validated. -/
theorem claim_C7_amended (env : Env) (p m : Int)
    (hp : intGetenv env ("MYSQL_PORT") = .ok p)
    (hm : intGetenv env ("MIN_AGE_HOURS") = .ok m) :
    (missingOf env ≠ [] → startup env = .error (.envMissing (missingOf env)))
    ∧ (missingOf env = [] → ∃ st, startup env = .ok st) := by
  constructor
  · intro hne
    unfold startup
    rw [hp]
    dsimp only
    rw [hm]
    dsimp only
    unfold validate_env_vars
    rw [if_neg (by simp only [List.isEmpty_iff]; exact hne)]
  · intro he
    unfold startup
    rw [hp]
    dsimp only
    rw [hm]
    dsimp only
    unfold validate_env_vars
    rw [if_pos (by simp only [List.isEmpty_iff]; exact he)]
    exact ⟨_, rfl⟩

/-- Witness for the amended claim C7: with MYSQL_HOST missing (and the
int-cast variables present), startup fails with the enumerated list
containing exactly MYSQL_HOST. -/
theorem claim_C7_witness :
    intGetenv (envOf envNoHostL) ("MYSQL_PORT") = .ok 3306 ∧
    intGetenv (envOf envNoHostL) ("MIN_AGE_HOURS") = .ok 24 ∧
    missingOf (envOf envNoHostL) = [("MYSQL_HOST")] ∧
    startup (envOf envNoHostL) = .error (.envMissing [("MYSQL_HOST")]) := by
  have hmiss : missingOf (envOf envNoHostL) = [("MYSQL_HOST")] := rfl
  have h := (claim_C7_amended (envOf envNoHostL) 3306 24 rfl rfl).1
    (by rw [hmiss]; simp)
  rw [hmiss] at h
  exact ⟨rfl, rfl, hmiss, h⟩

/-! ### Partitioner lemmas (claim C2) -/

theorem mem_insertDay (d y : Int) : ∀ l, y ∈ insertDay d l ↔ y = d ∨ y ∈ l := by
  intro l
  induction l with
  | nil => simp [insertDay]
  | cons x xs ih =>
    rw [insertDay]
    by_cases h1 : d < x
    · rw [if_pos h1]
      simp [List.mem_cons]
    · rw [if_neg h1]
      by_cases h2 : d = x
      · rw [if_pos h2]
        subst h2
        simp [List.mem_cons]
      · rw [if_neg h2]
        simp only [List.mem_cons, ih]
        tauto

theorem sorted_insertDay (d : Int) :
    ∀ l, l.Sorted (· < ·) → (insertDay d l).Sorted (· < ·) := by
  intro l
  induction l with
  | nil => intro _; simp [insertDay]
  | cons x xs ih =>
    intro hs
    rw [List.sorted_cons] at hs
    obtain ⟨hx, hxs⟩ := hs
    rw [insertDay]
    by_cases h1 : d < x
    · rw [if_pos h1, List.sorted_cons]
      constructor
      · intro y hy
        rcases List.mem_cons.mp hy with h | h
        · subst h; exact h1
        · exact lt_trans h1 (hx y h)
      · rw [List.sorted_cons]
        exact ⟨hx, hxs⟩
    · by_cases h2 : d = x
      · rw [if_neg h1, if_pos h2, List.sorted_cons]
        exact ⟨hx, hxs⟩
      · rw [if_neg h1, if_neg h2, List.sorted_cons]
        constructor
        · intro y hy
          rcases (mem_insertDay d y xs).mp hy with h | h
          · subst h; omega
          · exact hx y h
        · exact ih hxs

theorem mem_sortedDays (y : Int) : ∀ l, y ∈ sortedDays l ↔ y ∈ l := by
  intro l
  induction l with
  | nil => simp [sortedDays]
  | cons x xs ih =>
    unfold sortedDays at ih ⊢
    rw [List.foldr_cons, mem_insertDay, ih]
    simp [List.mem_cons]

theorem sorted_sortedDays : ∀ l, (sortedDays l).Sorted (· < ·) := by
  intro l
  induction l with
  | nil => simp [sortedDays]
  | cons x xs ih =>
    unfold sortedDays at ih ⊢
    rw [List.foldr_cons]
    exact sorted_insertDay x _ ih

theorem nodup_sortedDays (l : List Int) : (sortedDays l).Nodup :=
  (sorted_sortedDays l).nodup

theorem getCell_append_last (r : List JVal) (v : JVal) :
    getCell (r ++ [v]) r.length = v := by
  unfold getCell
  rw [List.getD_eq_getElem?_getD, List.getElem?_append_right (le_refl _)]
  simp

/-- The extended row (with created_date appended) reads back its day
value at position cols.length whenever the original row spans the
columns. -/
theorem dayOf_ext (ti n : Nat) (r : List JVal) (hr : r.length = n) :
    (asTs (getCell (r ++ [extCell ti r]) n)).getD 0 = dayIndex (tsOfR ti r) := by
  rw [← hr, getCell_append_last]
  rfl

/-- Explicit shape of partitionize when no created_date column exists
yet: append the day column, key by the sorted distinct day values, and
filter each group by its day. -/
theorem partitionize_eq (ti : Nat) (df : DF) (hcd : ¬ cdName ∈ df.cols) :
    partitionize ti df =
      (sortedDays ((df.data.map (fun r => r ++ [extCell ti r])).map
        (fun x => (asTs (getCell x df.cols.length)).getD 0))).map
      (fun d => (d, ⟨df.cols ++ [cdName],
        (df.data.map (fun r => r ++ [extCell ti r])).filter
          (fun x => decide ((asTs (getCell x df.cols.length)).getD 0 = d))⟩)) := by
  have hset : setOrAppendCol df cdName (extCell ti) =
      ⟨df.cols ++ [cdName], df.data.map (fun r => r ++ [extCell ti r])⟩ := by
    unfold setOrAppendCol
    rw [show df.colIdx cdName = none from idxOf?_eq_none _ _ hcd]
  have hci : (DF.colIdx ⟨df.cols ++ [cdName],
      df.data.map (fun r => r ++ [extCell ti r])⟩ cdName).getD 0 = df.cols.length := by
    rw [show DF.colIdx ⟨df.cols ++ [cdName],
      df.data.map (fun r => r ++ [extCell ti r])⟩ cdName = some df.cols.length from
      idxOf?_append_self _ _ hcd]
    rfl
  dsimp only [partitionize]
  rw [hset]
  rw [hci]

/-- Concatenating, over a duplicate-free key list covering all elements,
the sublists filtered by each key permutes the original list. -/
theorem join_filter_perm {α : Type} (key : α → Int) :
    ∀ (ks : List Int) (xs : List α), ks.Nodup → (∀ x ∈ xs, key x ∈ ks) →
    List.Perm ((ks.map (fun d => xs.filter (fun x => decide (key x = d)))).flatten) xs := by
  intro ks
  induction ks with
  | nil =>
    intro xs _ hcov
    have hx : xs = [] := by
      rw [List.eq_nil_iff_forall_not_mem]
      intro a ha
      exact absurd (hcov a ha) (by simp)
    rw [hx]
    simp
  | cons k ks2 ih =>
    intro xs hnd hcov
    rw [List.nodup_cons] at hnd
    obtain ⟨hk, hnd2⟩ := hnd
    rw [List.map_cons, List.flatten_cons]
    have hmapeq : ks2.map (fun d => xs.filter (fun x => decide (key x = d))) =
        ks2.map (fun d => (xs.filter (fun x => !decide (key x = k))).filter
          (fun x => decide (key x = d))) := by
      apply List.map_congr_left
      intro d hd
      have hdk : d ≠ k := fun he => hk (he ▸ hd)
      rw [List.filter_filter]
      apply List.filter_congr
      intro x _
      by_cases hx : key x = d
      · simp [hx, hdk]
      · simp [hx]
    rw [hmapeq]
    have hcov2 : ∀ x ∈ xs.filter (fun x => !decide (key x = k)), key x ∈ ks2 := by
      intro x hx
      rw [List.mem_filter] at hx
      obtain ⟨hx1, hx2⟩ := hx
      rcases List.mem_cons.mp (hcov x hx1) with h | h
      · rw [h] at hx2
        simp at hx2
      · exact h
    have hperm2 := ih (xs.filter (fun x => !decide (key x = k))) hnd2 hcov2
    exact (List.Perm.append_left _ hperm2).trans (List.filter_append_perm _ xs)

/-- Claim C2: for every input row set and cutoff, the produced partitions
have duplicate-free keys; every row of every partition is an age-qualified
input row (extended with its created_date cell) whose timestamp's UTC
calendar date equals the partition key; the partitions' rows jointly
permute exactly the qualified row set (completeness and disjointness);
every qualified row lands in exactly one partition; and no row newer than
the cutoff appears in any partition. -/
theorem claim_C2 (df : DF) (ti : Nat) (cutoff : Int)
    (hwf : wfDF df) (hcd : ¬ cdName ∈ df.cols) :
    ((partitionize ti (ageFilter ti cutoff df)).map Prod.fst).Nodup
    ∧ (∀ p ∈ partitionize ti (ageFilter ti cutoff df), ∀ x ∈ (Prod.snd p).data,
        ∃ r, r ∈ df.data ∧ x = r ++ [extCell ti r] ∧ tsOfR ti r ≤ cutoff ∧
          dayIndex (tsOfR ti r) = p.1)
    ∧ List.Perm (((partitionize ti (ageFilter ti cutoff df)).map
        (fun p => (Prod.snd p).data)).flatten)
        ((ageFilter ti cutoff df).data.map (fun r => r ++ [extCell ti r]))
    ∧ (∀ r ∈ df.data, tsOfR ti r ≤ cutoff →
        ∃! p, p ∈ partitionize ti (ageFilter ti cutoff df) ∧
          (r ++ [extCell ti r]) ∈ (Prod.snd p).data)
    ∧ (∀ r ∈ df.data, cutoff < tsOfR ti r →
        ∀ p ∈ partitionize ti (ageFilter ti cutoff df),
          ¬ (r ++ [extCell ti r]) ∈ (Prod.snd p).data) := by
  have hqcd : ¬ cdName ∈ (ageFilter ti cutoff df).cols := hcd
  have hP := partitionize_eq ti (ageFilter ti cutoff df) hqcd
  have hmemq : ∀ r ∈ (ageFilter ti cutoff df).data,
      r ∈ df.data ∧ tsOfR ti r ≤ cutoff := by
    intro r hr
    unfold ageFilter at hr
    rw [List.mem_filter] at hr
    exact ⟨hr.1, by simpa using hr.2⟩
  have hmemq2 : ∀ r ∈ df.data, tsOfR ti r ≤ cutoff →
      r ∈ (ageFilter ti cutoff df).data := by
    intro r hr hts
    unfold ageFilter
    rw [List.mem_filter]
    exact ⟨hr, by simpa using hts⟩
  have hkey : ∀ r ∈ (ageFilter ti cutoff df).data,
      (asTs (getCell (r ++ [extCell ti r]) (ageFilter ti cutoff df).cols.length)).getD 0 =
        dayIndex (tsOfR ti r) := by
    intro r hr
    exact dayOf_ext ti _ r (hwf r (hmemq r hr).1)
  have hkey4 : ∀ x ∈ (ageFilter ti cutoff df).data.map (fun r => r ++ [extCell ti r]),
      (asTs (getCell x (ageFilter ti cutoff df).cols.length)).getD 0 ∈
        sortedDays (((ageFilter ti cutoff df).data.map (fun r => r ++ [extCell ti r])).map
          (fun x => (asTs (getCell x (ageFilter ti cutoff df).cols.length)).getD 0)) := by
    intro x hx
    rw [mem_sortedDays]
    exact List.mem_map_of_mem _ hx
  have part2 : ∀ p ∈ partitionize ti (ageFilter ti cutoff df), ∀ x ∈ (Prod.snd p).data,
      ∃ r, r ∈ df.data ∧ x = r ++ [extCell ti r] ∧ tsOfR ti r ≤ cutoff ∧
        dayIndex (tsOfR ti r) = p.1 := by
    intro p hp x hx
    rw [hP] at hp
    obtain ⟨d, _, rfl⟩ := List.mem_map.mp hp
    dsimp only at hx
    rw [List.mem_filter] at hx
    obtain ⟨hx4, hxd⟩ := hx
    obtain ⟨r, hr, rfl⟩ := List.mem_map.mp hx4
    obtain ⟨hrdf, hrts⟩ := hmemq r hr
    refine ⟨r, hrdf, rfl, hrts, ?_⟩
    rw [← hkey r hr]
    exact of_decide_eq_true hxd
  refine ⟨?_, part2, ?_, ?_, ?_⟩
  · rw [hP]
    rw [List.map_map]
    have hid : (Prod.fst ∘ fun d => ((d : Int), (⟨(ageFilter ti cutoff df).cols ++ [cdName],
        ((ageFilter ti cutoff df).data.map (fun r => r ++ [extCell ti r])).filter
          (fun x => decide ((asTs (getCell x (ageFilter ti cutoff df).cols.length)).getD 0
            = d))⟩ : DF))) = id := rfl
    rw [hid, List.map_id]
    exact nodup_sortedDays _
  · rw [hP]
    rw [List.map_map]
    exact join_filter_perm _ _ _ (nodup_sortedDays _) hkey4
  · intro r hr hts
    have hrq : r ∈ (ageFilter ti cutoff df).data := hmemq2 r hr hts
    have hx4 : (r ++ [extCell ti r]) ∈
        (ageFilter ti cutoff df).data.map (fun rr => rr ++ [extCell ti rr]) :=
      List.mem_map_of_mem _ hrq
    have hkx := hkey r hrq
    have hd : dayIndex (tsOfR ti r) ∈
        sortedDays (((ageFilter ti cutoff df).data.map (fun rr => rr ++ [extCell ti rr])).map
          (fun x => (asTs (getCell x (ageFilter ti cutoff df).cols.length)).getD 0)) := by
      rw [← hkx]
      exact hkey4 _ hx4
    refine ⟨(dayIndex (tsOfR ti r), ⟨(ageFilter ti cutoff df).cols ++ [cdName],
      ((ageFilter ti cutoff df).data.map (fun rr => rr ++ [extCell ti rr])).filter
        (fun x => decide ((asTs (getCell x (ageFilter ti cutoff df).cols.length)).getD 0
          = dayIndex (tsOfR ti r)))⟩), ⟨?_, ?_⟩, ?_⟩
    · rw [hP]
      exact List.mem_map_of_mem _ hd
    · dsimp only
      rw [List.mem_filter]
      exact ⟨hx4, by rw [hkx]; simp⟩
    · intro p' hp'
      obtain ⟨hp'el, hp'x⟩ := hp'
      rw [hP] at hp'el
      obtain ⟨d', _, rfl⟩ := List.mem_map.mp hp'el
      dsimp only at hp'x
      rw [List.mem_filter] at hp'x
      have hdd : d' = dayIndex (tsOfR ti r) := by
        have h2 := of_decide_eq_true hp'x.2
        rw [hkx] at h2
        exact h2.symm
      rw [hdd]
  · intro r hr hgt p hp hx
    obtain ⟨r2, hr2df, heq, hr2ts, _⟩ := part2 p hp _ hx
    have hlen : r.length = r2.length := by
      rw [hwf r hr, hwf r2 hr2df]
    have hrr : r = r2 := (List.append_inj heq hlen).1
    rw [hrr] at hgt
    omega

/-- Witness for claim C2 at a concrete two-day table. -/
theorem claim_C2_witness :
    wfDF dfTwoDays ∧ ¬ cdName ∈ dfTwoDays.cols ∧
    ((partitionize 1 (ageFilter 1 999999 dfTwoDays)).map Prod.fst).Nodup ∧
    (∀ r ∈ dfTwoDays.data, tsOfR 1 r ≤ 999999 →
      ∃! p, p ∈ partitionize 1 (ageFilter 1 999999 dfTwoDays) ∧
        (r ++ [extCell 1 r]) ∈ (Prod.snd p).data) :=
  ⟨by decide, by decide,
    (claim_C2 dfTwoDays 1 999999 (by decide) (by decide)).1,
    (claim_C2 dfTwoDays 1 999999 (by decide) (by decide)).2.2.2.1⟩

/-! ### Serializer round-trip lemmas (claim C5) -/

theorem mapRowsE_ok (i : Nat) (f : JVal → Except PyErr JVal) :
    ∀ (rs rs2 : List (List JVal)), mapRowsE i f rs = .ok rs2 →
    ∀ r2 ∈ rs2, ∃ r ∈ rs, r2.length = r.length := by
  intro rs
  induction rs with
  | nil =>
    intro rs2 h r2 hr2
    rw [mapRowsE] at h
    simp at h
    subst h
    simp at hr2
  | cons r rest ih =>
    intro rs2 h r2 hr2
    rw [mapRowsE] at h
    cases hc : f (getCell r i) with
    | error e => rw [hc] at h; simp at h
    | ok v =>
      rw [hc] at h
      dsimp only at h
      cases hrec : mapRowsE i f rest with
      | error e => rw [hrec] at h; simp at h
      | ok rs3 =>
        rw [hrec] at h
        simp at h
        rw [← h] at hr2
        rcases List.mem_cons.mp hr2 with h1 | h1
        · refine ⟨r, List.mem_cons_self _ _, ?_⟩
          rw [h1]
          unfold setCell
          exact List.length_set r i v
        · obtain ⟨r0, hr0, hl⟩ := ih rs3 hrec r2 h1
          exact ⟨r0, List.mem_cons_of_mem _ hr0, hl⟩

theorem clean_ok_shape : ∀ (columns : List String) (df df2 : DF),
    clean_nested_json_fields df columns = .ok df2 →
    df2.cols = df.cols ∧ (wfDF df → wfDF df2) := by
  intro columns
  induction columns with
  | nil =>
    intro df df2 h
    rw [clean_nested_json_fields] at h
    simp at h
    rw [← h]
    exact ⟨rfl, fun hw => hw⟩
  | cons c cs ih =>
    intro df df2 h
    rw [clean_nested_json_fields] at h
    cases hm : mapColE df c cleanCell with
    | error e => rw [hm] at h; simp at h
    | ok dfm =>
      rw [hm] at h
      dsimp only at h
      have hmshape : dfm.cols = df.cols ∧ (wfDF df → wfDF dfm) := by
        unfold mapColE at hm
        cases hidx : df.colIdx c with
        | none => rw [hidx] at hm; simp at hm
        | some i =>
          rw [hidx] at hm
          dsimp only at hm
          cases hrows : mapRowsE i cleanCell df.data with
          | error e => rw [hrows] at hm; simp at hm
          | ok d2 =>
            rw [hrows] at hm
            simp at hm
            rw [← hm]
            refine ⟨rfl, fun hw => ?_⟩
            intro r2 hr2
            obtain ⟨r, hr, hl⟩ := mapRowsE_ok i cleanCell df.data d2 hrows r2 hr2
            rw [hl]
            exact hw r hr
      obtain ⟨hc1, hc2⟩ := hmshape
      obtain ⟨hc3, hc4⟩ := ih dfm df2 h
      exact ⟨hc3.trans hc1, fun hw => hc4 (hc2 hw)⟩

def maxFuel : List JVal → Nat
  | [] => 0
  | v :: vs => max (fuelV v) (maxFuel vs)

theorem le_maxFuel : ∀ (vs : List JVal) (v : JVal), v ∈ vs → fuelV v ≤ maxFuel vs := by
  intro vs
  induction vs with
  | nil => intro v hv; simp at hv
  | cons w ws ih =>
    intro v hv
    rw [maxFuel]
    rcases List.mem_cons.mp hv with h | h
    · rw [h]
      exact Nat.le_max_left _ _
    · exact Nat.le_trans (ih v h) (Nat.le_max_right _ _)

theorem parseLinesWith_encode (fuel : Nat) :
    ∀ (vs : List JVal), (∀ v ∈ vs, fuelV v ≤ fuel) →
    parseLinesWith fuel (vs.map encodeV) = some vs := by
  intro vs
  induction vs with
  | nil => intro _; rfl
  | cons v ws ih =>
    intro hb
    rw [List.map_cons, parseLinesWith]
    have hp : parseVal fuel (encodeV v) = some (v, []) := by
      have h0 := parse_encodeV v [] fuel (hb v (List.mem_cons_self _ _)) rfl
      rw [List.append_nil] at h0
      exact h0
    rw [hp]
    dsimp only
    rw [ih (fun w hw => hb w (List.mem_cons_of_mem _ hw))]

theorem row_rebuild (r : List JVal) :
    (List.range r.length).map (fun j => getCell r j) = r := by
  apply List.ext_getElem
  · simp
  · intro i h1 h2
    simp only [List.getElem_map, List.getElem_range]
    unfold getCell
    rw [List.getD_eq_getElem?_getD, List.getElem?_eq_getElem h2]
    rfl

/-- Columnar round trip: writing a well-formed frame as a parquet table
and reading it back yields exactly the original rows. -/
theorem parquet_roundtrip (df : DF) (hwf : wfDF df) :
    parquetParse (export_as_parquet df) = some df.data := by
  unfold export_as_parquet parquetParse
  dsimp only
  congr 1
  apply List.ext_getElem
  · simp
  · intro i h1 h2
    simp only [List.getElem_map, List.getElem_range, List.map_map]
    have h2l : i < df.data.length := by simpa using h2
    have hstep : ∀ j : Nat,
        ((fun col => col.getD i .jnull) ∘ fun j => df.data.map (fun r => getCell r j)) j =
          getCell (df.data[i]) j := by
      intro j
      dsimp only [Function.comp]
      rw [List.getD_eq_getElem?_getD, List.getElem?_map, List.getElem?_eq_getElem h2l]
      rfl
    rw [List.map_congr_left (fun j _ => hstep j)]
    have hlen : df.data[i].length = df.cols.length := hwf _ (List.getElem_mem h2l)
    rw [← hlen]
    exact row_rebuild _

theorem encode_line_ne_nil (v : JVal) : encodeV v ≠ [] := by
  obtain ⟨c, cs, hc, _⟩ := encodeV_head v
  rw [hc]
  simp

/-- Claim C5: serializing a partition and parsing the file back yields
exactly the partition's rows, up to the nested-field normalization the
JSON path performs.  For the JSON format: export_as_json succeeds exactly
when clean_nested_json_fields does, the normalized frame keeps the same
columns and shape, and parsing the newline-delimited file recovers one
record per row carrying precisely the frame's columns in order.  For the
parquet format: reading the columnar table back yields exactly the
original rows. -/
theorem claim_C5 (df df2 : DF) (hwf : wfDF df)
    (hcl : clean_nested_json_fields df [ctxName] = .ok df2) :
    export_as_json df = .ok (.jsonLines (ndjsonContent df2))
    ∧ df2.cols = df.cols
    ∧ wfDF df2
    ∧ (∃ fuel, parseNdjson fuel (ndjsonContent df2) =
        some (df2.data.map (fun r => .jobj (df2.cols.zip r))))
    ∧ parquetParse (export_as_parquet df) = some df.data := by
  obtain ⟨hcols, hwfp⟩ := clean_ok_shape [ctxName] df df2 hcl
  have hwf2 : wfDF df2 := hwfp hwf
  refine ⟨?_, hcols, hwf2, ?_, parquet_roundtrip df hwf⟩
  · unfold export_as_json
    rw [hcl]
  · refine ⟨maxFuel (df2.data.map (fun r => .jobj (df2.cols.zip r))), ?_⟩
    unfold parseNdjson ndjsonContent
    have hlines : df2.data.map (fun r => encodeV (.jobj (df2.cols.zip r))) =
        (df2.data.map (fun r => JVal.jobj (df2.cols.zip r))).map encodeV := by
      rw [List.map_map]
      rfl
    rw [hlines]
    rw [splitNl_joinLines]
    · exact parseLinesWith_encode _ _
        (fun v hv => le_maxFuel _ v hv)
    · intro l hl
      obtain ⟨v, _, rfl⟩ := List.mem_map.mp hl
      intro c hc he
      rw [he] at hc
      exact encodeV_no_nl v hc
    · intro l hl
      obtain ⟨v, _, rfl⟩ := List.mem_map.mp hl
      exact encode_line_ne_nil v

def dfCtxW : DF := ⟨[idName, ctxName], [[.jint 1, .jstr ("hello")]]⟩

/-- Witness for claim C5 at a concrete one-row frame with a plain string
context value. -/
theorem claim_C5_witness :
    wfDF dfCtxW ∧
    clean_nested_json_fields dfCtxW [ctxName] = .ok dfCtxW ∧
    (∃ fuel, parseNdjson fuel (ndjsonContent dfCtxW) =
      some (dfCtxW.data.map (fun r => .jobj (dfCtxW.cols.zip r)))) ∧
    parquetParse (export_as_parquet dfCtxW) = some dfCtxW.data := by
  have h := claim_C5 dfCtxW dfCtxW (by decide) rfl
  exact ⟨by decide, rfl, h.2.2.2.1, h.2.2.2.2⟩

end MySQLtoS3
